import Mathlib

/-!
Verification of the cubic extension field `Fp6` of BLS12-381 (`src/fp6.rs`).

The crate file under verification implements the degree-3 extension of the
quadratic extension field `Fp2`, itself built on the prime field `Fp` of
characteristic `P`.  The `Fp` and `Fp2` layers are external collaborators of
the file under verification; they are modelled here from the specification
(canonical residues modulo the large prime `P`, pairs `c0 + c1 u` with
`u ^ 2 = -1`).  The `Fp6` operations are translated from the source.
-/

set_option maxRecDepth 10000

namespace Bls

/-- Modelled from the spec: the characteristic of the external base prime
field ("canonical residues mod a large prime"), the BLS12-381 prime. -/
def P : ℕ := 0x1a0111ea397fe69a4b1ba7b6434bacd764774b84f38512bf6730d2a0f6b0f6241eabfffeb153ffffb9feffffffffaaab

/-- Modelled from the spec: an element of the external base prime field is a
canonical residue modulo `P`. -/
abbrev Fp := ZMod P

instance : NeZero P := ⟨by decide⟩

/-- Little-endian value of a sequence of 64-bit limbs. -/
def limbsLE : List ℕ → ℕ
  | [] => 0
  | l :: ls => l + 2 ^ 64 * limbsLE ls

/-- Modelled from the spec: the Montgomery radix `R = 2 ^ 384` of the
external base field, which stores an element as six 64-bit limbs in
Montgomery form (the fixed curve constants are "embedded as literal
canonical field values" through the raw limb constructor; the lemmas below
check that under this reading the embedded constants denote exactly the
mathematical values the spec names for them). -/
def R : ℕ := 39402006196394479212279040100143613805079739270465446667948293404245721771497210611414266254884915640806627990306816

/-- The canonical residue of `R⁻¹ mod P`, used to read raw Montgomery limbs. -/
def RINV : Fp := 3231460744492646417066832100176244795738767926513225105051837195607029917124509527734802654356338138714468589979680

theorem R_mul_RINV : (R : Fp) * RINV = 1 := by decide

/-- Modelled from the spec: raw-limb element construction of the external
base field ("raw-limb element construction used only to embed fixed
curve-specific constants"); the limbs are little-endian 64-bit words in
Montgomery form, so the canonical residue they denote is their value
multiplied by `R⁻¹`. -/
def Fp.from_raw_unchecked (v : List ℕ) : Fp := (limbsLE v : Fp) * RINV

/-- Modelled from the spec: the fused "sum of products" reduction of the
external base field ("the six-term fused-multiply-accumulate-reduce
primitive over six pairs of base-field elements"): the dot product of the
two lists of residues. -/
def Fp.sum_of_products (a b : List Fp) : Fp :=
  (List.zipWith (fun x y => x * y) a b).sum

/-- Modelled from the spec: the constant-time optional of the source
("a payload plus a boolean validity flag, where an invalid payload bit
pattern is still fully defined"). -/
structure CtOption (α : Type) where
  value : α
  isSome : Bool

/-- Modelled from the spec: mapping over the payload of a constant-time
optional keeps the validity flag. -/
def CtOption.map {α β : Type} (f : α → β) (o : CtOption α) : CtOption β :=
  ⟨f o.value, o.isSome⟩

/-- Modelled from the spec: optional chaining; the validity flags are
combined with a bitwise AND ("propagate invalidity outward by the same
optional-chaining discipline"). -/
def CtOption.and_then {α β : Type} (o : CtOption α) (f : α → CtOption β) : CtOption β :=
  ⟨(f o.value).value, o.isSome && (f o.value).isSome⟩

/-- Modelled from the spec: an element `c0 + c1 u` of the external quadratic
extension field, where `u ^ 2 = -1`. -/
structure Fp2 where
  c0 : Fp
  c1 : Fp
deriving DecidableEq

namespace Fp2

/-- Modelled from the spec: the additive identity of the quadratic field. -/
def zero : Fp2 := ⟨0, 0⟩

/-- Modelled from the spec: the multiplicative identity of the quadratic field. -/
def one : Fp2 := ⟨1, 0⟩

/-- Modelled from the spec: componentwise addition of the quadratic field. -/
def add (a b : Fp2) : Fp2 := ⟨a.c0 + b.c0, a.c1 + b.c1⟩

/-- Modelled from the spec: componentwise subtraction of the quadratic field. -/
def sub (a b : Fp2) : Fp2 := ⟨a.c0 - b.c0, a.c1 - b.c1⟩

/-- Modelled from the spec: componentwise negation of the quadratic field. -/
def neg (a : Fp2) : Fp2 := ⟨-a.c0, -a.c1⟩

/-- Modelled from the spec: the product in the quadratic field, using
`u ^ 2 = -1`. -/
def mul (a b : Fp2) : Fp2 :=
  ⟨a.c0 * b.c0 - a.c1 * b.c1, a.c0 * b.c1 + a.c1 * b.c0⟩

/-- Modelled from the spec: squaring in the quadratic field. -/
def square (a : Fp2) : Fp2 := a.mul a

/-- Modelled from the spec: the "multiply by nonresidue" operation of the
quadratic field, multiplication by `u + 1` (the source comment derives
`v ^ 3 = u + 1` for the cubic tower). -/
def mul_by_nonresidue (a : Fp2) : Fp2 := ⟨a.c0 - a.c1, a.c0 + a.c1⟩

/-- Modelled from the spec: the Frobenius map `x ↦ x ^ p` of the quadratic
field; since `P ≡ 3 (mod 4)` it is conjugation `c0 + c1 u ↦ c0 - c1 u`. -/
def frobenius_map (a : Fp2) : Fp2 := ⟨a.c0, -a.c1⟩

/-- Modelled from the spec: the constant-time zero test of the quadratic
field. -/
def is_zero (a : Fp2) : Bool := decide (a = zero)

/-- Modelled from the spec: the constant-time equality of the quadratic
field. -/
def ct_eq (a b : Fp2) : Bool := decide (a = b)

/-- Modelled from the spec: the constant-time selection of the quadratic
field; the selector bit picks the second operand when set. -/
def conditional_select (a b : Fp2) (choice : Bool) : Fp2 :=
  if choice then b else a

end Fp2

instance : Zero Fp2 := ⟨Fp2.zero⟩
instance : One Fp2 := ⟨Fp2.one⟩
instance : Add Fp2 := ⟨Fp2.add⟩
instance : Sub Fp2 := ⟨Fp2.sub⟩
instance : Neg Fp2 := ⟨Fp2.neg⟩
instance : Mul Fp2 := ⟨Fp2.mul⟩

instance : CommRing Fp2 where
  add := (· + ·)
  zero := 0
  neg := (- ·)
  sub := (· - ·)
  mul := (· * ·)
  one := 1
  nsmul := nsmulRec
  zsmul := zsmulRec
  add_assoc a b c := by
    show Fp2.add (Fp2.add a b) c = Fp2.add a (Fp2.add b c)
    cases a; cases b; cases c
    simp only [Fp2.add, Fp2.mk.injEq]
    constructor <;> ring
  zero_add a := by
    show Fp2.add Fp2.zero a = a
    cases a
    simp only [Fp2.add, Fp2.zero, Fp2.mk.injEq]
    constructor <;> ring
  add_zero a := by
    show Fp2.add a Fp2.zero = a
    cases a
    simp only [Fp2.add, Fp2.zero, Fp2.mk.injEq]
    constructor <;> ring
  add_comm a b := by
    show Fp2.add a b = Fp2.add b a
    cases a; cases b
    simp only [Fp2.add, Fp2.mk.injEq]
    constructor <;> ring
  sub_eq_add_neg a b := by
    show Fp2.sub a b = Fp2.add a (Fp2.neg b)
    cases a; cases b
    simp only [Fp2.sub, Fp2.add, Fp2.neg, Fp2.mk.injEq]
    constructor <;> ring
  neg_add_cancel a := by
    show Fp2.add (Fp2.neg a) a = Fp2.zero
    cases a
    simp only [Fp2.add, Fp2.neg, Fp2.zero, Fp2.mk.injEq]
    constructor <;> ring
  mul_assoc a b c := by
    show Fp2.mul (Fp2.mul a b) c = Fp2.mul a (Fp2.mul b c)
    cases a; cases b; cases c
    simp only [Fp2.mul, Fp2.mk.injEq]
    constructor <;> ring
  one_mul a := by
    show Fp2.mul Fp2.one a = a
    cases a
    simp only [Fp2.mul, Fp2.one, Fp2.mk.injEq]
    constructor <;> ring
  mul_one a := by
    show Fp2.mul a Fp2.one = a
    cases a
    simp only [Fp2.mul, Fp2.one, Fp2.mk.injEq]
    constructor <;> ring
  zero_mul a := by
    show Fp2.mul Fp2.zero a = Fp2.zero
    cases a
    simp only [Fp2.mul, Fp2.zero, Fp2.mk.injEq]
    constructor <;> ring
  mul_zero a := by
    show Fp2.mul a Fp2.zero = Fp2.zero
    cases a
    simp only [Fp2.mul, Fp2.zero, Fp2.mk.injEq]
    constructor <;> ring
  left_distrib a b c := by
    show Fp2.mul a (Fp2.add b c) = Fp2.add (Fp2.mul a b) (Fp2.mul a c)
    cases a; cases b; cases c
    simp only [Fp2.mul, Fp2.add, Fp2.mk.injEq]
    constructor <;> ring
  right_distrib a b c := by
    show Fp2.mul (Fp2.add a b) c = Fp2.add (Fp2.mul a c) (Fp2.mul b c)
    cases a; cases b; cases c
    simp only [Fp2.mul, Fp2.add, Fp2.mk.injEq]
    constructor <;> ring
  mul_comm a b := by
    show Fp2.mul a b = Fp2.mul b a
    cases a; cases b
    simp only [Fp2.mul, Fp2.mk.injEq]
    constructor <;> ring

theorem Fp2.ext_iff2 {a b : Fp2} : a = b ↔ a.c0 = b.c0 ∧ a.c1 = b.c1 := by
  cases a; cases b; simp [Fp2.mk.injEq]

theorem Fp2.add_def2 (a b : Fp2) : a + b = a.add b := rfl

theorem Fp2.sub_def2 (a b : Fp2) : a - b = a.sub b := rfl

theorem Fp2.neg_def2 (a : Fp2) : -a = a.neg := rfl

theorem Fp2.mul_def2 (a b : Fp2) : a * b = a.mul b := rfl

theorem Fp2.zero_def2 : (0 : Fp2) = Fp2.zero := rfl

theorem Fp2.one_def2 : (1 : Fp2) = Fp2.one := rfl

@[simp] theorem Fp2.add_mk2 (x0 x1 y0 y1 : Fp) :
    (⟨x0, x1⟩ + ⟨y0, y1⟩ : Fp2) = ⟨x0 + y0, x1 + y1⟩ := rfl

@[simp] theorem Fp2.sub_mk2 (x0 x1 y0 y1 : Fp) :
    (⟨x0, x1⟩ - ⟨y0, y1⟩ : Fp2) = ⟨x0 - y0, x1 - y1⟩ := rfl

@[simp] theorem Fp2.neg_mk2 (x0 x1 : Fp) : (-(⟨x0, x1⟩ : Fp2)) = ⟨-x0, -x1⟩ := rfl

@[simp] theorem Fp2.mul_mk (x0 x1 y0 y1 : Fp) :
    (⟨x0, x1⟩ * ⟨y0, y1⟩ : Fp2) = ⟨x0 * y0 - x1 * y1, x0 * y1 + x1 * y0⟩ := rfl

theorem Fp2.mul_c0 (a b : Fp2) : (a * b).c0 = a.c0 * b.c0 - a.c1 * b.c1 := rfl

theorem Fp2.mul_c1 (a b : Fp2) : (a * b).c1 = a.c0 * b.c1 + a.c1 * b.c0 := rfl

/-- Fuel-bounded binary exponentiation in the base field, used to express
the Fermat inverse `x ^ (P - 2)` of the external base field executably. -/
def Fp.powFuel : ℕ → Fp → ℕ → Fp
  | 0, _, _ => 1
  | f + 1, x, e =>
    if e = 0 then 1
    else if e % 2 = 1 then x * Fp.powFuel f (x * x) (e / 2)
    else Fp.powFuel f (x * x) (e / 2)

/-- Modelled from the spec: the constant-time inversion of the external base
field; the validity flag is false exactly on the additive identity, and the
payload is the Fermat inverse `x ^ (P - 2)`. -/
def Fp.invert (x : Fp) : CtOption Fp :=
  ⟨Fp.powFuel 400 x (P - 2), decide (x ≠ 0)⟩

/-- Modelled from the spec: the constant-time inversion of the external
quadratic field; "the quadratic-field inversion signals invalidity" exactly
on the additive identity.  The payload is the conjugate scaled by the
base-field inverse of the norm `c0 ^ 2 + c1 ^ 2`. -/
def Fp2.invert (a : Fp2) : CtOption Fp2 :=
  ⟨⟨a.c0 * (Fp.invert (a.c0 * a.c0 + a.c1 * a.c1)).value,
    -a.c1 * (Fp.invert (a.c0 * a.c0 + a.c1 * a.c1)).value⟩,
   decide (a ≠ 0)⟩

/-- Big-endian byte string (each entry below 256) of a natural number, using
a fixed width of `k` bytes. -/
def natToBytesBE : ℕ → ℕ → List ℕ
  | 0, _ => []
  | k + 1, n => natToBytesBE k (n / 256) ++ [n % 256]

/-- The natural number denoted by a big-endian byte string. -/
def bytesToNatBE (bs : List ℕ) : ℕ :=
  bs.foldl (fun acc b => acc * 256 + b) 0

/-- Modelled from the spec: the fixed 48-byte big-endian encoding of the
external base field (the canonical residue written in big-endian bytes). -/
def Fp.to_bytes (x : Fp) : List ℕ := natToBytesBE 48 x.val

/-- Modelled from the spec: decoding of a 48-byte big-endian base-field
window; "decoding fails (constant-time invalid flag) if any of the ...
windows fails its own canonical check", i.e. the flag is set exactly when
the denoted integer is below the modulus. -/
def Fp.from_bytes (bs : List ℕ) : CtOption Fp :=
  ⟨((bytesToNatBE bs : ℕ) : Fp), decide (bytesToNatBE bs < P)⟩

/-- Modelled from the spec: the fixed 96-byte encoding of the external
quadratic field, "itself two 48-byte base-field encodings" (the spec does
not fix which component comes first; the round-trip and layout properties
proved below are independent of that choice). -/
def Fp2.to_bytes (a : Fp2) : List ℕ := a.c0.to_bytes ++ a.c1.to_bytes

/-- Modelled from the spec: decoding of a 96-byte quadratic-field window as
two 48-byte base-field windows, chaining the validity flags. -/
def Fp2.from_bytes_unchecked (bs : List ℕ) : CtOption Fp2 :=
  (Fp.from_bytes (bs.take 48)).and_then fun x0 =>
    (Fp.from_bytes (bs.drop 48)).map fun x1 => ⟨x0, x1⟩

/-- An element `c0 + c1 v + c2 v ^ 2` of the cubic extension field
(`struct Fp6` of the source), where `v ^ 3 = u + 1`. -/
structure Fp6 where
  c0 : Fp2
  c1 : Fp2
  c2 : Fp2
deriving DecidableEq

namespace Fp6

/-- Translated from `Fp6::zero`. -/
def zero : Fp6 := ⟨Fp2.zero, Fp2.zero, Fp2.zero⟩

/-- Translated from `Fp6::one`. -/
def one : Fp6 := ⟨Fp2.one, Fp2.zero, Fp2.zero⟩

/-- Translated from the `Add` implementation for `Fp6`: componentwise
addition. -/
def add (a b : Fp6) : Fp6 := ⟨a.c0 + b.c0, a.c1 + b.c1, a.c2 + b.c2⟩

/-- Translated from the `Sub` implementation for `Fp6`: componentwise
subtraction. -/
def sub (a b : Fp6) : Fp6 := ⟨a.c0 - b.c0, a.c1 - b.c1, a.c2 - b.c2⟩

/-- Translated from the `Neg` implementation for `Fp6`: componentwise
negation. -/
def neg (a : Fp6) : Fp6 := ⟨-a.c0, -a.c1, -a.c2⟩

/-- Translated from `Fp6::is_zero`: the AND of the three component zero
tests. -/
def is_zero (a : Fp6) : Bool := a.c0.is_zero && a.c1.is_zero && a.c2.is_zero

/-- Translated from the `ConstantTimeEq` implementation for `Fp6`: the AND
of the three component equalities. -/
def ct_eq (a b : Fp6) : Bool := a.c0.ct_eq b.c0 && a.c1.ct_eq b.c1 && a.c2.ct_eq b.c2

/-- Translated from the `ConditionallySelectable` implementation for `Fp6`:
componentwise selection by a shared selector bit. -/
def conditional_select (a b : Fp6) (choice : Bool) : Fp6 :=
  ⟨Fp2.conditional_select a.c0 b.c0 choice,
   Fp2.conditional_select a.c1 b.c1 choice,
   Fp2.conditional_select a.c2 b.c2 choice⟩

/-- Translated from `Fp6::mul_by_1`. -/
def mul_by_1 (a : Fp6) (c1 : Fp2) : Fp6 :=
  let b_b := a.c1 * c1
  let t1 := (a.c1 + a.c2) * c1 - b_b
  let t1 := t1.mul_by_nonresidue
  let t2 := (a.c0 + a.c1) * c1 - b_b
  ⟨t1, t2, b_b⟩

/-- Translated from `Fp6::mul_by_01`. -/
def mul_by_01 (a : Fp6) (c0 c1 : Fp2) : Fp6 :=
  let a_a := a.c0 * c0
  let b_b := a.c1 * c1
  let t1 := (a.c1 + a.c2) * c1 - b_b
  let t1 := t1.mul_by_nonresidue + a_a
  let t2 := (c0 + c1) * (a.c0 + a.c1) - a_a - b_b
  let t3 := (a.c0 + a.c2) * c0 - a_a + b_b
  ⟨t1, t2, t3⟩

/-- Translated from `Fp6::mul_by_nonresidue`: multiplication by the
quadratic nonresidue `v` rotates the components and applies the
quadratic-field nonresidue multiplication to the outgoing top component. -/
def mul_by_nonresidue (a : Fp6) : Fp6 := ⟨a.c2.mul_by_nonresidue, a.c0, a.c1⟩

/-- Translated from `Fp6::frobenius_map`: componentwise quadratic-field
Frobenius followed by multiplication of `c1` and `c2` by the two embedded
constants `(u + 1) ^ ((p - 1) / 3)` and `(u + 1) ^ ((2 p - 2) / 3)`. -/
def frobenius_map (a : Fp6) : Fp6 :=
  let c0 := a.c0.frobenius_map
  let c1 := a.c1.frobenius_map
  let c2 := a.c2.frobenius_map
  let c1 := c1 * ⟨(0 : Fp),
    Fp.from_raw_unchecked [0xcd03c9e48671f071, 0x5dab22461fcda5d2, 0x587042afd3851b95,
      0x8eb60ebe01bacb9e, 0x03f97d6e83d050d2, 0x18f0206554638741]⟩
  let c2 := c2 * ⟨Fp.from_raw_unchecked [0x890dc9e4867545c3, 0x2af322533285a5d5,
      0x50880866309b7e2c, 0xa20d1b8c7e881024, 0x14e4f04fe2db9068, 0x14e56d3f1564853a],
    (0 : Fp)⟩
  ⟨c0, c1, c2⟩

/-- Translated from `Fp6::mul_interleaved`: the full-tower interleaved
product, expressed through six base-field sums of products. -/
def mul_interleaved (a b : Fp6) : Fp6 :=
  let b10_p_b11 := b.c1.c0 + b.c1.c1
  let b10_m_b11 := b.c1.c0 - b.c1.c1
  let b20_p_b21 := b.c2.c0 + b.c2.c1
  let b20_m_b21 := b.c2.c0 - b.c2.c1
  ⟨⟨Fp.sum_of_products [a.c0.c0, -a.c0.c1, a.c1.c0, -a.c1.c1, a.c2.c0, -a.c2.c1]
      [b.c0.c0, b.c0.c1, b20_m_b21, b20_p_b21, b10_m_b11, b10_p_b11],
    Fp.sum_of_products [a.c0.c0, a.c0.c1, a.c1.c0, a.c1.c1, a.c2.c0, a.c2.c1]
      [b.c0.c1, b.c0.c0, b20_p_b21, b20_m_b21, b10_p_b11, b10_m_b11]⟩,
   ⟨Fp.sum_of_products [a.c0.c0, -a.c0.c1, a.c1.c0, -a.c1.c1, a.c2.c0, -a.c2.c1]
      [b.c1.c0, b.c1.c1, b.c0.c0, b.c0.c1, b20_m_b21, b20_p_b21],
    Fp.sum_of_products [a.c0.c0, a.c0.c1, a.c1.c0, a.c1.c1, a.c2.c0, a.c2.c1]
      [b.c1.c1, b.c1.c0, b.c0.c1, b.c0.c0, b20_p_b21, b20_m_b21]⟩,
   ⟨Fp.sum_of_products [a.c0.c0, -a.c0.c1, a.c1.c0, -a.c1.c1, a.c2.c0, -a.c2.c1]
      [b.c2.c0, b.c2.c1, b.c1.c0, b.c1.c1, b.c0.c0, b.c0.c1],
    Fp.sum_of_products [a.c0.c0, a.c0.c1, a.c1.c0, a.c1.c1, a.c2.c0, a.c2.c1]
      [b.c2.c1, b.c2.c0, b.c1.c1, b.c1.c0, b.c0.c1, b.c0.c0]⟩⟩

/-- Translated from `Fp6::square` (Chung-Hasan style squaring). -/
def square (a : Fp6) : Fp6 :=
  let s0 := a.c0.square
  let ab := a.c0 * a.c1
  let s1 := ab + ab
  let s2 := (a.c0 - a.c1 + a.c2).square
  let bc := a.c1 * a.c2
  let s3 := bc + bc
  let s4 := a.c2.square
  ⟨s3.mul_by_nonresidue + s0,
   s4.mul_by_nonresidue + s1,
   s1 + s2 + s3 - s0 - s4⟩

/-- Translated from `Fp6::invert` (norm-based inversion; the validity of the
quadratic-field inversion of the norm propagates). -/
def invert (a : Fp6) : CtOption Fp6 :=
  let c0 := (a.c1 * a.c2).mul_by_nonresidue
  let c0 := a.c0.square - c0
  let c1 := a.c2.square.mul_by_nonresidue
  let c1 := c1 - a.c0 * a.c1
  let c2 := a.c1.square
  let c2 := c2 - a.c0 * a.c2
  let tmp := ((a.c1 * c2) + (a.c2 * c1)).mul_by_nonresidue
  let tmp := tmp + a.c0 * c0
  tmp.invert.map fun t => ⟨t * c0, t * c1, t * c2⟩

/-- The lookup table of `pow_vartime`: entry `n` is built exactly by the
recurrences of the source (`lut[0] = 1`, `lut[1] = a`,
`lut[2 i] = lut[i].square()`, `lut[2 i + 1] = lut[2 i] * a`); the fuel
argument only bounds the recursion depth and never runs out for the
byte-sized indices the source uses. -/
def lutAux (a : Fp6) : ℕ → ℕ → Fp6
  | 0, _ => Fp6.one
  | _ + 1, 0 => Fp6.one
  | _ + 1, 1 => a
  | f + 1, n + 2 =>
    if (n + 2) % 2 = 0 then (lutAux a f ((n + 2) / 2)).square
    else (lutAux a f (n + 1)).mul_interleaved a

/-- The lookup table of `pow_vartime` with enough fuel for all indices the
source reads (bytes, i.e. indices below 256). -/
def lut (a : Fp6) (n : ℕ) : Fp6 := lutAux a 256 n

/-- The `for _ in 0..k { res = res.square(); }` loop of `pow_vartime`. -/
def sqN : ℕ → Fp6 → Fp6
  | 0, r => r
  | n + 1, r => sqN n r.square

/-- Body of the limb loop of `pow_vartime`: multiply by the table entry of
each of the eight bytes of the limb, most significant byte first, with
eight squarings between consecutive bytes, exactly as unrolled in the
source. -/
def limbBody (a res : Fp6) (e : ℕ) : Fp6 :=
  let res := res.mul_interleaved (lut a ((e >>> (7 * 8)) &&& 255))
  let res := sqN 8 res
  let res := res.mul_interleaved (lut a ((e >>> (6 * 8)) &&& 255))
  let res := sqN 8 res
  let res := res.mul_interleaved (lut a ((e >>> (5 * 8)) &&& 255))
  let res := sqN 8 res
  let res := res.mul_interleaved (lut a ((e >>> (4 * 8)) &&& 255))
  let res := sqN 8 res
  let res := res.mul_interleaved (lut a ((e >>> (3 * 8)) &&& 255))
  let res := sqN 8 res
  let res := res.mul_interleaved (lut a ((e >>> (2 * 8)) &&& 255))
  let res := sqN 8 res
  let res := res.mul_interleaved (lut a ((e >>> (1 * 8)) &&& 255))
  let res := sqN 8 res
  let res := res.mul_interleaved (lut a (e &&& 255))
  res

/-- The limb loop of `pow_vartime`: the source iterates the index `j` from
the top of the slice downwards (so the processing order is the reverse of
the slice order) and skips the initial eight squarings for the first
processed limb. -/
def powLoop (a : Fp6) : List ℕ → Fp6 → Bool → Fp6
  | [], res, _ => res
  | e :: rest, res, first =>
    powLoop a rest (limbBody a (if first then res else sqN 8 res) e) false

/-- Translated from `Fp6::pow_vartime`: 8-bit-window exponentiation by the
integer whose 64-bit limbs are given in the slice, processed from the top
index downwards. -/
def pow_vartime (a : Fp6) (exp : List ℕ) : Fp6 :=
  powLoop a exp.reverse Fp6.one true

/-- The limb table `Q_9_16` of the source, denoting `(P ^ 6 - 9) / 16`. -/
def Q_9_16 : List ℕ :=
  [0xec6c98463c0705d6, 0x43e289a0f3f4bf2d, 0xbd7b3ab5b8c6b958, 0x1e2224a8eb96aa99,
   0x5bc6e626bf75d31b, 0x112c3fafee728bc6, 0xea912bfab48acaa3, 0xd1104ac1a5e1d016,
   0x8753cc53bc216c89, 0x68d0e2ff6757720d, 0xceb29abcf6393273, 0xa48cffe36be19d62,
   0x3c60ea9e7da88f87, 0x64a169ed7be12645, 0x8ce491e59479f2f0, 0xae8ef66f64fc39e3,
   0x45a04d8b589e2ee0, 0x6fe7ecc060dc0416, 0xe3a393c71fbaa2a9, 0x383ae97d6e42a21d,
   0xa0b065ad579101c2, 0xd1d8e1e24340abd7, 0xdccf5dcd2baf7616, 0x88cefbbcb4b30a9e,
   0x3f8495f8c07454bb, 0xe5df34f80b646e30, 0xc69f8d8d26942fd6, 0x7dcd0112c1716c29,
   0xd91568530d98be18, 0x7b7a84c946d480f7, 0x5c538a5d6456a69c, 0x605ec38b8f441e07,
   0xd4bf5d877014b55f, 0x0f22d47e8f4c8a61, 0x9a1f49cc5d7911d1, 0x126e3a9ce60]

/-- Translated from `Fp6::sqrt` (generalized Atkin square root, using
`P ^ 6 ≡ 9 (mod 16)`): two fixed candidates are derived from one large
exponentiation, each is tested by squaring, and the matching one is
selected in constant time. -/
def sqrt (a : Fp6) : CtOption Fp6 :=
  let d1 := Fp6.one.neg
  let d2 : Fp6 := ⟨Fp2.zero, Fp2.one, Fp2.zero⟩
  let d1p : Fp6 :=
    ⟨⟨Fp.from_raw_unchecked [0x3e2f585da55c9ad1, 0x4294213d86c18183, 0x382844c88b623732,
        0x92ad2afd19103e18, 0x1d794e4fac7cf0b9, 0x0bd592fc7d825ec8],
      Fp.from_raw_unchecked [0, 0, 0, 0, 0, 0]⟩,
     ⟨Fp.from_raw_unchecked [0, 0, 0, 0, 0, 0], Fp.from_raw_unchecked [0, 0, 0, 0, 0, 0]⟩,
     ⟨Fp.from_raw_unchecked [0, 0, 0, 0, 0, 0], Fp.from_raw_unchecked [0, 0, 0, 0, 0, 0]⟩⟩
  let d2p : Fp6 :=
    ⟨⟨Fp.from_raw_unchecked [0, 0, 0, 0, 0, 0], Fp.from_raw_unchecked [0, 0, 0, 0, 0, 0]⟩,
     ⟨Fp.from_raw_unchecked [0, 0, 0, 0, 0, 0], Fp.from_raw_unchecked [0, 0, 0, 0, 0, 0]⟩,
     ⟨Fp.from_raw_unchecked [0, 0, 0, 0, 0, 0],
      Fp.from_raw_unchecked [0xa1fafffffffe5557, 0x995bfff976a3fffe, 0x03f41d24d174ceb4,
        0xf6547998c1995dbd, 0x778a468f507a6034, 0x020559931f7f8103]⟩⟩
  let xp := a.pow_vartime Q_9_16
  let z1 := xp.mul_interleaved d1p
  let z2 := xp.mul_interleaved d2p
  let z1d1 := z1.mul_interleaved d1
  let z2d2 := z2.mul_interleaved d2
  let hi1 := (z1d1.mul_interleaved z1d1).mul_interleaved a
  let hi2 := (z2d2.mul_interleaved z2d2).mul_interleaved a
  let i1 := hi1.add hi1
  let i2 := hi2.add hi2
  let a1 := (z1d1.mul_interleaved a).mul_interleaved (i1.sub Fp6.one)
  let a2 := (z2d2.mul_interleaved a).mul_interleaved (i2.sub Fp6.one)
  let c1 := a.ct_eq (a1.mul_interleaved a1)
  let c2 := a.ct_eq (a2.mul_interleaved a2)
  let r := conditional_select a1 a2 c2
  ⟨r, c1 || c2⟩

/-- Translated from `Fp6::from_bytes_unchecked`: the three 96-byte windows
`[0, 96)`, `[96, 192)` and `[192, 288)` decode `c0`, `c1` and `c2`, and the
validity flags are chained. -/
def from_bytes_unchecked (bytes : List ℕ) : CtOption Fp6 :=
  let c0 := Fp2.from_bytes_unchecked (bytes.take 96)
  let c1 := Fp2.from_bytes_unchecked ((bytes.drop 96).take 96)
  let c2 := Fp2.from_bytes_unchecked (bytes.drop 192)
  c0.and_then fun x0 => c1.and_then fun x1 => c2.map fun x2 => ⟨x0, x1, x2⟩

/-- Translated from `Fp6::to_bytes`: the 288-byte big-endian encoding laying
out `c0`, `c1`, `c2` consecutively. -/
def to_bytes (a : Fp6) : List ℕ := a.c0.to_bytes ++ a.c1.to_bytes ++ a.c2.to_bytes

end Fp6

instance : Zero Fp6 := ⟨Fp6.zero⟩
instance : One Fp6 := ⟨Fp6.one⟩
instance : Add Fp6 := ⟨Fp6.add⟩
instance : Sub Fp6 := ⟨Fp6.sub⟩
instance : Neg Fp6 := ⟨Fp6.neg⟩
instance : Mul Fp6 := ⟨Fp6.mul_interleaved⟩

@[simp] theorem Fp2.zero_eq : Fp2.zero = (0 : Fp2) := rfl

@[simp] theorem Fp2.one_eq : Fp2.one = (1 : Fp2) := rfl

/-- The quadratic nonresidue multiplication of `Fp2` is multiplication by
the ring element `u + 1`. -/
theorem Fp2.mul_by_nonresidue_eq (a : Fp2) : a.mul_by_nonresidue = a * ⟨1, 1⟩ := by
  cases a
  simp only [Fp2.mul_by_nonresidue, Fp2.mul_mk, Fp2.mk.injEq]
  constructor <;> ring

/-- The interleaved product agrees with the schoolbook product of the cubic
extension, written with quadratic-field operations (`u + 1` is the cubic
nonresidue). -/
theorem Fp6.mul_interleaved_eq (a b : Fp6) :
    a.mul_interleaved b =
      ⟨a.c0 * b.c0 + (a.c1 * b.c2 + a.c2 * b.c1) * ⟨1, 1⟩,
       a.c0 * b.c1 + a.c1 * b.c0 + a.c2 * b.c2 * ⟨1, 1⟩,
       a.c0 * b.c2 + a.c1 * b.c1 + a.c2 * b.c0⟩ := by
  obtain ⟨⟨a00, a01⟩, ⟨a10, a11⟩, ⟨a20, a21⟩⟩ := a
  obtain ⟨⟨b00, b01⟩, ⟨b10, b11⟩, ⟨b20, b21⟩⟩ := b
  simp only [Fp6.mul_interleaved, Fp.sum_of_products, List.zipWith_cons_cons,
    List.zipWith_nil_right, List.sum_cons, List.sum_nil, Fp2.mul_mk, Fp2.add_mk2,
    Fp6.mk.injEq, Fp2.mk.injEq]
  refine ⟨⟨?_, ?_⟩, ⟨?_, ?_⟩, ⟨?_, ?_⟩⟩ <;> ring

theorem Fp6.mul_def (a b : Fp6) : a * b = a.mul_interleaved b := rfl

theorem Fp6.add_def (a b : Fp6) : a + b = a.add b := rfl

theorem Fp6.sub_def (a b : Fp6) : a - b = a.sub b := rfl

theorem Fp6.neg_def (a : Fp6) : -a = a.neg := rfl

theorem Fp6.zero_def : (0 : Fp6) = Fp6.zero := rfl

theorem Fp6.one_def : (1 : Fp6) = Fp6.one := rfl

/-- The schoolbook product, restated for the ring operation. -/
theorem Fp6.mul_eq (a b : Fp6) :
    a * b =
      ⟨a.c0 * b.c0 + (a.c1 * b.c2 + a.c2 * b.c1) * ⟨1, 1⟩,
       a.c0 * b.c1 + a.c1 * b.c0 + a.c2 * b.c2 * ⟨1, 1⟩,
       a.c0 * b.c2 + a.c1 * b.c1 + a.c2 * b.c0⟩ :=
  Fp6.mul_interleaved_eq a b

@[simp] theorem Fp6.add_mk (x0 x1 x2 y0 y1 y2 : Fp2) :
    (⟨x0, x1, x2⟩ + ⟨y0, y1, y2⟩ : Fp6) = ⟨x0 + y0, x1 + y1, x2 + y2⟩ := rfl

@[simp] theorem Fp6.sub_mk (x0 x1 x2 y0 y1 y2 : Fp2) :
    (⟨x0, x1, x2⟩ - ⟨y0, y1, y2⟩ : Fp6) = ⟨x0 - y0, x1 - y1, x2 - y2⟩ := rfl

@[simp] theorem Fp6.neg_mk (x0 x1 x2 : Fp2) :
    (-(⟨x0, x1, x2⟩ : Fp6)) = ⟨-x0, -x1, -x2⟩ := rfl

instance : CommRing Fp6 where
  add := (· + ·)
  zero := 0
  neg := (- ·)
  sub := (· - ·)
  mul := (· * ·)
  one := 1
  nsmul := nsmulRec
  zsmul := zsmulRec
  add_assoc a b c := by
    show Fp6.add (Fp6.add a b) c = Fp6.add a (Fp6.add b c)
    cases a; cases b; cases c
    simp only [Fp6.add, Fp6.mk.injEq]
    refine ⟨?_, ?_, ?_⟩ <;> ring
  zero_add a := by
    show Fp6.add Fp6.zero a = a
    cases a
    simp only [Fp6.add, Fp6.zero, Fp2.zero_eq, Fp6.mk.injEq]
    refine ⟨?_, ?_, ?_⟩ <;> ring
  add_zero a := by
    show Fp6.add a Fp6.zero = a
    cases a
    simp only [Fp6.add, Fp6.zero, Fp2.zero_eq, Fp6.mk.injEq]
    refine ⟨?_, ?_, ?_⟩ <;> ring
  add_comm a b := by
    show Fp6.add a b = Fp6.add b a
    cases a; cases b
    simp only [Fp6.add, Fp6.mk.injEq]
    refine ⟨?_, ?_, ?_⟩ <;> ring
  sub_eq_add_neg a b := by
    show Fp6.sub a b = Fp6.add a (Fp6.neg b)
    cases a; cases b
    simp only [Fp6.sub, Fp6.add, Fp6.neg, Fp6.mk.injEq]
    refine ⟨?_, ?_, ?_⟩ <;> ring
  neg_add_cancel a := by
    show Fp6.add (Fp6.neg a) a = Fp6.zero
    cases a
    simp only [Fp6.add, Fp6.neg, Fp6.zero, Fp2.zero_eq, Fp6.mk.injEq]
    refine ⟨?_, ?_, ?_⟩ <;> ring
  mul_assoc a b c := by
    show (a * b) * c = a * (b * c)
    simp only [Fp6.mul_eq, Fp6.mk.injEq]
    refine ⟨?_, ?_, ?_⟩ <;> ring
  one_mul a := by
    show (1 : Fp6) * a = a
    cases a
    simp only [Fp6.mul_eq, Fp6.one_def, Fp6.one, Fp2.zero_eq, Fp2.one_eq, Fp6.mk.injEq]
    refine ⟨?_, ?_, ?_⟩ <;> ring
  mul_one a := by
    show a * (1 : Fp6) = a
    cases a
    simp only [Fp6.mul_eq, Fp6.one_def, Fp6.one, Fp2.zero_eq, Fp2.one_eq, Fp6.mk.injEq]
    refine ⟨?_, ?_, ?_⟩ <;> ring
  zero_mul a := by
    show (0 : Fp6) * a = 0
    cases a
    simp only [Fp6.mul_eq, Fp6.zero_def, Fp6.zero, Fp2.zero_eq, Fp6.mk.injEq]
    refine ⟨?_, ?_, ?_⟩ <;> ring
  mul_zero a := by
    show a * (0 : Fp6) = 0
    cases a
    simp only [Fp6.mul_eq, Fp6.zero_def, Fp6.zero, Fp2.zero_eq, Fp6.mk.injEq]
    refine ⟨?_, ?_, ?_⟩ <;> ring
  left_distrib a b c := by
    show a * (b + c) = a * b + a * c
    cases a; cases b; cases c
    simp only [Fp6.mul_eq, Fp6.add_mk]
    simp only [Fp6.mk.injEq]
    refine ⟨?_, ?_, ?_⟩ <;> ring
  right_distrib a b c := by
    show (a + b) * c = a * c + b * c
    cases a; cases b; cases c
    simp only [Fp6.mul_eq, Fp6.add_mk]
    simp only [Fp6.mk.injEq]
    refine ⟨?_, ?_, ?_⟩ <;> ring
  mul_comm a b := by
    show a * b = b * a
    simp only [Fp6.mul_eq, Fp6.mk.injEq]
    refine ⟨?_, ?_, ?_⟩ <;> ring

/-- The dedicated squaring routine agrees with the general interleaved
product of an element with itself (shared by several claims below). -/
theorem Fp6.square_eq (a : Fp6) : a.square = a * a := by
  obtain ⟨⟨a00, a01⟩, ⟨a10, a11⟩, ⟨a20, a21⟩⟩ := a
  simp only [Fp6.square, Fp6.mul_eq, Fp2.square, Fp2.mul_by_nonresidue_eq]
  simp only [Fp2.mul_def2, Fp2.mul, Fp2.add_mk2, Fp2.sub_mk2, Fp2.mul_mk, Fp6.mk.injEq,
    Fp2.mk.injEq]
  refine ⟨⟨?_, ?_⟩, ⟨?_, ?_⟩, ⟨?_, ?_⟩⟩ <;> ring

/-- C1: for every element `a` of the cubic extension field, `square a` is
bit-identical (equality of all three `Fp2` components) to the general
product `mul_interleaved a a`. -/
theorem Fp6.square_consistency (a : Fp6) : a.square = a.mul_interleaved a :=
  Fp6.square_eq a

/-- C4: the sparse product `mul_by_1 a c1` is bit-identical to the general
product of `a` with `(0, c1, 0)`, and `mul_by_01 a c0 c1` is bit-identical
to the general product of `a` with `(c0, c1, 0)`. -/
theorem Fp6.sparse_mul_consistency (a : Fp6) (c0 c1 : Fp2) :
    a.mul_by_1 c1 = a.mul_interleaved ⟨Fp2.zero, c1, Fp2.zero⟩ ∧
      a.mul_by_01 c0 c1 = a.mul_interleaved ⟨c0, c1, Fp2.zero⟩ := by
  constructor
  · simp only [Fp6.mul_by_1, Fp6.mul_interleaved_eq, Fp2.mul_by_nonresidue_eq,
      Fp2.zero_eq, Fp6.mk.injEq]
    refine ⟨?_, ?_, ?_⟩ <;> ring
  · simp only [Fp6.mul_by_01, Fp6.mul_interleaved_eq, Fp2.mul_by_nonresidue_eq,
      Fp2.zero_eq, Fp6.mk.injEq]
    refine ⟨?_, ?_, ?_⟩ <;> ring

/-- C8: `mul_by_nonresidue a` is the component rotation
`(nonresidue * c2, c0, c1)`, and it is bit-identical to the general product
of `a` with the element `v = (0, 1, 0)`. -/
theorem Fp6.mul_by_nonresidue_rotation (a : Fp6) :
    a.mul_by_nonresidue = ⟨a.c2.mul_by_nonresidue, a.c0, a.c1⟩ ∧
      a.mul_by_nonresidue = a.mul_interleaved ⟨Fp2.zero, Fp2.one, Fp2.zero⟩ := by
  refine ⟨rfl, ?_⟩
  simp only [Fp6.mul_by_nonresidue, Fp6.mul_interleaved_eq, Fp2.mul_by_nonresidue_eq,
    Fp2.zero_eq, Fp2.one_eq, Fp6.mk.injEq]
  refine ⟨?_, ?_, ?_⟩ <;> ring

/-- C9: `pow_vartime` applied to the empty limb slice returns the
multiplicative identity (the empty exponent is treated as zero). -/
theorem Fp6.pow_vartime_nil (a : Fp6) : a.pow_vartime [] = Fp6.one := rfl

/-- C10: adding an element to its negation yields the additive identity. -/
theorem Fp6.add_neg_eq_zero (a : Fp6) : a.add a.neg = Fp6.zero := by
  cases a
  simp only [Fp6.add, Fp6.neg, Fp6.zero, Fp2.zero_eq, Fp6.mk.injEq]
  refine ⟨?_, ?_, ?_⟩ <;> ring

/-- The first embedded Frobenius constant of the source,
`(u + 1) ^ ((p - 1) / 3)`. -/
def frobG1 : Fp2 :=
  ⟨(0 : Fp),
   Fp.from_raw_unchecked [0xcd03c9e48671f071, 0x5dab22461fcda5d2, 0x587042afd3851b95,
     0x8eb60ebe01bacb9e, 0x03f97d6e83d050d2, 0x18f0206554638741]⟩

/-- The second embedded Frobenius constant of the source,
`(u + 1) ^ ((2 p - 2) / 3)`. -/
def frobG2 : Fp2 :=
  ⟨Fp.from_raw_unchecked [0x890dc9e4867545c3, 0x2af322533285a5d5, 0x50880866309b7e2c,
     0xa20d1b8c7e881024, 0x14e4f04fe2db9068, 0x14e56d3f1564853a],
   (0 : Fp)⟩

theorem Fp6.frobenius_map_eq (a : Fp6) :
    a.frobenius_map =
      ⟨a.c0.frobenius_map, a.c1.frobenius_map * frobG1, a.c2.frobenius_map * frobG2⟩ := rfl

/-- Applying the Frobenius map twice multiplies `c1` and `c2` by the norms
of the two embedded constants. -/
theorem Fp6.frobenius_map_sq (x : Fp6) :
    x.frobenius_map.frobenius_map =
      ⟨x.c0, x.c1 * (frobG1.frobenius_map * frobG1),
       x.c2 * (frobG2.frobenius_map * frobG2)⟩ := by
  obtain ⟨⟨x00, x01⟩, ⟨x10, x11⟩, ⟨x20, x21⟩⟩ := x
  simp only [Fp6.frobenius_map_eq, frobG1, frobG2, Fp2.frobenius_map, Fp2.mul_mk,
    Fp2.neg_mk2, Fp6.mk.injEq, Fp2.mk.injEq]
  refine ⟨⟨?_, ?_⟩, ⟨?_, ?_⟩, ⟨?_, ?_⟩⟩ <;> ring

theorem frobG1_norm_cube : (frobG1.frobenius_map * frobG1) ^ 3 = 1 := by decide

theorem frobG2_norm_cube : (frobG2.frobenius_map * frobG2) ^ 3 = 1 := by decide

/-- C7: applying the Frobenius map six times in succession returns the
element unchanged (the endomorphism has order dividing 6). -/
theorem Fp6.frobenius_order_six (a : Fp6) :
    a.frobenius_map.frobenius_map.frobenius_map.frobenius_map.frobenius_map.frobenius_map
      = a := by
  obtain ⟨ca, cb, cc⟩ := a
  rw [Fp6.frobenius_map_sq, Fp6.frobenius_map_sq, Fp6.frobenius_map_sq]
  simp only [Fp6.mk.injEq]
  refine ⟨trivial, ?_, ?_⟩
  · linear_combination cb * frobG1_norm_cube
  · linear_combination cc * frobG2_norm_cube

theorem Fp6.ext_iff {a b : Fp6} : a = b ↔ a.c0 = b.c0 ∧ a.c1 = b.c1 ∧ a.c2 = b.c2 := by
  cases a; cases b; simp [Fp6.mk.injEq]

/-- The constant-time equality of `Fp6` decides propositional equality. -/
theorem Fp6.ct_eq_eq (a b : Fp6) : a.ct_eq b = decide (a = b) := by
  rw [Bool.eq_iff_iff]
  simp only [Fp6.ct_eq, Fp2.ct_eq, Bool.and_eq_true, decide_eq_true_eq, Fp6.ext_iff,
    and_assoc]

/-- The componentwise constant-time selection of `Fp6` is selection of the
whole element. -/
theorem Fp6.conditional_select_eq (a b : Fp6) (ch : Bool) :
    Fp6.conditional_select a b ch = if ch then b else a := by
  cases ch <;> rfl

/-- The two square-root candidates derived inside `Fp6::sqrt` (the values
`a1` and `a2` of the source, before the squaring test). -/
def Fp6.sqrtCandidates (a : Fp6) : Fp6 × Fp6 :=
  let d1 := Fp6.one.neg
  let d2 : Fp6 := ⟨Fp2.zero, Fp2.one, Fp2.zero⟩
  let d1p : Fp6 :=
    ⟨⟨Fp.from_raw_unchecked [0x3e2f585da55c9ad1, 0x4294213d86c18183, 0x382844c88b623732,
        0x92ad2afd19103e18, 0x1d794e4fac7cf0b9, 0x0bd592fc7d825ec8],
      Fp.from_raw_unchecked [0, 0, 0, 0, 0, 0]⟩,
     ⟨Fp.from_raw_unchecked [0, 0, 0, 0, 0, 0], Fp.from_raw_unchecked [0, 0, 0, 0, 0, 0]⟩,
     ⟨Fp.from_raw_unchecked [0, 0, 0, 0, 0, 0], Fp.from_raw_unchecked [0, 0, 0, 0, 0, 0]⟩⟩
  let d2p : Fp6 :=
    ⟨⟨Fp.from_raw_unchecked [0, 0, 0, 0, 0, 0], Fp.from_raw_unchecked [0, 0, 0, 0, 0, 0]⟩,
     ⟨Fp.from_raw_unchecked [0, 0, 0, 0, 0, 0], Fp.from_raw_unchecked [0, 0, 0, 0, 0, 0]⟩,
     ⟨Fp.from_raw_unchecked [0, 0, 0, 0, 0, 0],
      Fp.from_raw_unchecked [0xa1fafffffffe5557, 0x995bfff976a3fffe, 0x03f41d24d174ceb4,
        0xf6547998c1995dbd, 0x778a468f507a6034, 0x020559931f7f8103]⟩⟩
  let xp := a.pow_vartime Q_9_16
  let z1 := xp.mul_interleaved d1p
  let z2 := xp.mul_interleaved d2p
  let z1d1 := z1.mul_interleaved d1
  let z2d2 := z2.mul_interleaved d2
  let hi1 := (z1d1.mul_interleaved z1d1).mul_interleaved a
  let hi2 := (z2d2.mul_interleaved z2d2).mul_interleaved a
  let i1 := hi1.add hi1
  let i2 := hi2.add hi2
  let a1 := (z1d1.mul_interleaved a).mul_interleaved (i1.sub Fp6.one)
  let a2 := (z2d2.mul_interleaved a).mul_interleaved (i2.sub Fp6.one)
  (a1, a2)

/-- The result of `Fp6::sqrt` written through its two candidates: the
payload is the constant-time selection of the candidate whose square
matches, and the flag is the OR of the two squaring tests. -/
theorem Fp6.sqrt_eq (a : Fp6) :
    a.sqrt =
      ⟨Fp6.conditional_select a.sqrtCandidates.1 a.sqrtCandidates.2
         (a.ct_eq (a.sqrtCandidates.2.mul_interleaved a.sqrtCandidates.2)),
       a.ct_eq (a.sqrtCandidates.1.mul_interleaved a.sqrtCandidates.1) ||
         a.ct_eq (a.sqrtCandidates.2.mul_interleaved a.sqrtCandidates.2)⟩ := rfl

/-- C3: the validity flag of `sqrt a` is true exactly when one of the two
internally derived candidates squares to `a`, and whenever the flag is set
the payload squares (with the dedicated squaring routine) back to `a`
bit-identically. -/
theorem Fp6.sqrt_spec (a : Fp6) :
    ((a.sqrt.isSome = true) ↔
      (a.sqrtCandidates.1.square = a ∨ a.sqrtCandidates.2.square = a)) ∧
      (a.sqrt.isSome = true → a.sqrt.value.square = a) := by
  rcases hq : a.sqrtCandidates with ⟨q1, q2⟩
  have h1 : a.sqrt =
      ⟨Fp6.conditional_select q1 q2 (a.ct_eq (q2.mul_interleaved q2)),
       a.ct_eq (q1.mul_interleaved q1) || a.ct_eq (q2.mul_interleaved q2)⟩ := by
    rw [Fp6.sqrt_eq, hq]
  have hsq : ∀ x : Fp6, x.mul_interleaved x = x.square := fun x => (Fp6.square_eq x).symm
  rw [h1]
  simp only [Fp6.ct_eq_eq, Fp6.conditional_select_eq, hsq]
  constructor
  · simp only [Bool.or_eq_true, decide_eq_true_eq]
    constructor
    · rintro (h | h) <;> [left; right] <;> exact h.symm
    · rintro (h | h) <;> [left; right] <;> exact h.symm
  · intro h
    by_cases h2 : a = q2.square
    · rw [if_pos (decide_eq_true h2)]
      exact h2.symm
    · have hd : decide (a = q2.square) = false := decide_eq_false h2
      rw [if_neg (by simp [hd])]
      simp only [hd, Bool.or_false, decide_eq_true_eq] at h
      exact h.symm

/-- The bytes produced by the fixed-width big-endian encoder are `k` in
number. -/
theorem natToBytesBE_length (k n : ℕ) : (natToBytesBE k n).length = k := by
  induction k generalizing n with
  | zero => rfl
  | succ k ih => simp [natToBytesBE, ih]

theorem bytesToNatBE_append_singleton (xs : List ℕ) (b : ℕ) :
    bytesToNatBE (xs ++ [b]) = bytesToNatBE xs * 256 + b := by
  simp [bytesToNatBE, List.foldl_append]

/-- Decoding inverts the fixed-width big-endian encoding of any number that
fits in the width. -/
theorem bytesToNatBE_natToBytesBE (k n : ℕ) (h : n < 256 ^ k) :
    bytesToNatBE (natToBytesBE k n) = n := by
  induction k generalizing n with
  | zero =>
    interval_cases n
    rfl
  | succ k ih =>
    have hdiv : n / 256 < 256 ^ k := by
      rw [Nat.div_lt_iff_lt_mul (by norm_num)]
      calc n < 256 ^ (k + 1) := h
      _ = 256 ^ k * 256 := by ring
    simp only [natToBytesBE, bytesToNatBE_append_singleton, ih _ hdiv]
    omega

theorem P_lt_pow : P < 256 ^ 48 := by norm_num [P]

/-- Round trip of the modelled base-field serialization: every canonical
residue encodes to 48 bytes that decode back to it with a set validity
flag. -/
theorem Fp.bytes_roundtrip_base (x : Fp) : Fp.from_bytes (Fp.to_bytes x) = ⟨x, true⟩ := by
  have hval : x.val < P := ZMod.val_lt x
  have h : bytesToNatBE (natToBytesBE 48 x.val) = x.val :=
    bytesToNatBE_natToBytesBE 48 x.val (lt_trans hval P_lt_pow)
  show CtOption.mk ((bytesToNatBE (Fp.to_bytes x) : ℕ) : Fp)
      (decide (bytesToNatBE (Fp.to_bytes x) < P)) = ⟨x, true⟩
  rw [show bytesToNatBE (Fp.to_bytes x) = x.val from h]
  rw [ZMod.natCast_zmod_val x, decide_eq_true hval]

theorem Fp.to_bytes_length_base (x : Fp) : (Fp.to_bytes x).length = 48 :=
  natToBytesBE_length 48 x.val

theorem Fp2.to_bytes_length2 (a : Fp2) : (Fp2.to_bytes a).length = 96 := by
  simp [Fp2.to_bytes, Fp.to_bytes_length_base]

/-- Round trip of the modelled quadratic-field serialization. -/
theorem Fp2.bytes_roundtrip2 (a : Fp2) :
    Fp2.from_bytes_unchecked (Fp2.to_bytes a) = ⟨a, true⟩ := by
  have htake : (Fp2.to_bytes a).take 48 = a.c0.to_bytes := by
    simp only [Fp2.to_bytes]
    rw [← Fp.to_bytes_length_base a.c0, List.take_left]
  have hdrop : (Fp2.to_bytes a).drop 48 = a.c1.to_bytes := by
    simp only [Fp2.to_bytes]
    rw [← Fp.to_bytes_length_base a.c0, List.drop_left]
  simp only [Fp2.from_bytes_unchecked, htake, hdrop, Fp.bytes_roundtrip_base,
    CtOption.and_then, CtOption.map, Bool.and_true]

theorem Fp6.to_bytes_assoc (a : Fp6) :
    a.to_bytes = a.c0.to_bytes ++ (a.c1.to_bytes ++ a.c2.to_bytes) :=
  List.append_assoc _ _ _

/-- C6: decoding the 288-byte encoding of any (canonical, as all modelled
elements are) element succeeds and returns the element bit-identically, and
the encoding lays out `c0`, `c1`, `c2` in the byte windows `[0, 96)`,
`[96, 192)` and `[192, 288)`. -/
theorem Fp6.bytes_roundtrip (a : Fp6) :
    (Fp6.from_bytes_unchecked a.to_bytes).isSome = true ∧
      (Fp6.from_bytes_unchecked a.to_bytes).value = a ∧
      a.to_bytes = a.c0.to_bytes ++ a.c1.to_bytes ++ a.c2.to_bytes ∧
      a.to_bytes.length = 288 := by
  have h01 : (a.to_bytes).take 96 = a.c0.to_bytes := by
    rw [Fp6.to_bytes_assoc, ← Fp2.to_bytes_length2 a.c0, List.take_left]
  have hdrop : (a.to_bytes).drop 96 = a.c1.to_bytes ++ a.c2.to_bytes := by
    rw [Fp6.to_bytes_assoc, ← Fp2.to_bytes_length2 a.c0, List.drop_left]
  have h1 : ((a.to_bytes).drop 96).take 96 = a.c1.to_bytes := by
    rw [hdrop, ← Fp2.to_bytes_length2 a.c1, List.take_left]
  have h2 : (a.to_bytes).drop 192 = a.c2.to_bytes := by
    have h192 : (192 : ℕ) = 96 + 96 := by norm_num
    rw [h192, ← List.drop_drop, hdrop, ← Fp2.to_bytes_length2 a.c1, List.drop_left]
  have hfull : Fp6.from_bytes_unchecked a.to_bytes = ⟨a, true⟩ := by
    simp only [Fp6.from_bytes_unchecked, h01, h1, h2, Fp2.bytes_roundtrip2,
      CtOption.and_then, CtOption.map, Bool.and_self, Bool.and_true, Bool.true_and]
  refine ⟨?_, ?_, rfl, ?_⟩
  · rw [hfull]
  · rw [hfull]
  · rw [Fp6.to_bytes_assoc]
    simp [List.length_append, Fp2.to_bytes_length2]

theorem Fp6.mul_interleaved_def (a b : Fp6) : a.mul_interleaved b = a * b := rfl

/-- The lookup table of `pow_vartime` holds the powers of the base: entry
`n` is `a ^ n` whenever the fuel covers `n`. -/
theorem Fp6.lutAux_eq (a : Fp6) : ∀ f n : ℕ, n ≤ f → Fp6.lutAux a f n = a ^ n := by
  intro f
  induction f with
  | zero =>
    intro n hn
    cases Nat.le_zero.mp hn
    show Fp6.lutAux a 0 0 = a ^ 0
    rw [pow_zero]
    rfl
  | succ f ih =>
    intro n hn
    match n with
    | 0 =>
      show Fp6.lutAux a (f + 1) 0 = a ^ 0
      rw [pow_zero]
      rfl
    | 1 =>
      show Fp6.lutAux a (f + 1) 1 = a ^ 1
      rw [pow_one]
      rfl
    | (m + 2) =>
      show Fp6.lutAux a (f + 1) (m + 2) = a ^ (m + 2)
      simp only [Fp6.lutAux]
      by_cases hpar : (m + 2) % 2 = 0
      · rw [if_pos hpar, ih ((m + 2) / 2) (by omega), Fp6.square_eq, ← pow_add]
        congr 1
        omega
      · rw [if_neg hpar, ih (m + 1) (by omega), Fp6.mul_interleaved_def, ← pow_succ]

theorem Fp6.lut_eq (a : Fp6) (n : ℕ) (h : n ≤ 256) : Fp6.lut a n = a ^ n :=
  Fp6.lutAux_eq a 256 n h

/-- The squaring loop raises to the power `2 ^ k`. -/
theorem Fp6.sqN_eq (k : ℕ) (r : Fp6) : Fp6.sqN k r = r ^ 2 ^ k := by
  induction k generalizing r with
  | zero =>
    rw [show (2 : ℕ) ^ 0 = 1 from rfl, pow_one]
    rfl
  | succ k ih =>
    show Fp6.sqN k r.square = r ^ 2 ^ (k + 1)
    rw [ih, Fp6.square_eq, ← pow_two, ← pow_mul]
    congr 1
    ring

/-- One byte step of the window method: squaring eight times and
multiplying by the table entry of the next byte extends the processed
prefix of the exponent by one byte. -/
theorem Fp6.byteStep (r x : Fp6) (m : ℕ) :
    (r * x ^ (m / 2 ^ 8)) ^ (2 : ℕ) ^ 8 * x ^ (m % 2 ^ 8) = r ^ (2 : ℕ) ^ 8 * x ^ m := by
  rw [mul_pow, ← pow_mul, mul_assoc, ← pow_add]
  congr 2
  omega

/-- Processing one 64-bit limb multiplies the accumulator exponent by
`2 ^ 56` (the eight initial squarings of the next limb are separate) and
adds the limb. -/
theorem Fp6.limbBody_eq (a r : Fp6) (e : ℕ) (he : e < 2 ^ 64) :
    Fp6.limbBody a r e = r ^ 2 ^ 56 * a ^ e := by
  have mask : ∀ m : ℕ, m &&& 255 = m % 2 ^ 8 := fun m => by
    rw [show (255 : ℕ) = 2 ^ 8 - 1 by norm_num]
    exact Nat.and_pow_two_sub_one_eq_mod m 8
  have shift : ∀ m k : ℕ, m >>> k = m / 2 ^ k := fun m k => Nat.shiftRight_eq_div_pow m k
  have hlut : ∀ m : ℕ, Fp6.lut a (m % 2 ^ 8) = a ^ (m % 2 ^ 8) := fun m =>
    Fp6.lut_eq a (m % 2 ^ 8) (le_of_lt (lt_of_lt_of_le (Nat.mod_lt _ (by norm_num)) (by norm_num)))
  have hb7 : e / 2 ^ (7 * 8) % 2 ^ 8 = e / 2 ^ (7 * 8) :=
    Nat.mod_eq_of_lt (by omega)
  have hd : ∀ j : ℕ, e / 2 ^ ((j + 1) * 8) = e / 2 ^ (j * 8) / 2 ^ 8 := fun j => by
    rw [Nat.div_div_eq_div_mul, ← pow_add]
    congr 1
    ring
  have h10 : e / 2 ^ (1 * 8) = e / 2 ^ (0 * 8) / 2 ^ 8 := hd 0
  have h00 : e = e / 2 ^ (0 * 8) := by norm_num
  simp only [Fp6.limbBody, mask, shift, Fp6.sqN_eq, hlut, Fp6.mul_interleaved_def]
  rw [hb7]
  rw [hd 6, Fp6.byteStep]
  rw [hd 5, Fp6.byteStep]
  rw [hd 4, Fp6.byteStep]
  rw [hd 3, Fp6.byteStep]
  rw [hd 2, Fp6.byteStep]
  rw [hd 1, Fp6.byteStep]
  rw [show e / 2 ^ (1 * 8) = e / 2 ^ 8 by norm_num, Fp6.byteStep]
  rw [← pow_mul, ← pow_mul, ← pow_mul, ← pow_mul, ← pow_mul, ← pow_mul]
  congr 1

/-- Value of a limb list in processing order (most significant limb
first). -/
def limbsProcessed : List ℕ → ℕ
  | [] => 0
  | e :: rest => e * (2 ^ 64) ^ rest.length + limbsProcessed rest

theorem limbsProcessed_append (xs : List ℕ) (e : ℕ) :
    limbsProcessed (xs ++ [e]) = limbsProcessed xs * 2 ^ 64 + e := by
  induction xs with
  | nil => simp [limbsProcessed]
  | cons x xs ih =>
    simp only [List.cons_append, limbsProcessed, ih, List.append_eq, List.length_append,
      List.length_cons, List.length_nil]
    ring

/-- The processing order of `pow_vartime` is the reverse of the slice, so
the processed value is the little-endian value of the slice. -/
theorem limbsProcessed_reverse (exp : List ℕ) :
    limbsProcessed exp.reverse = limbsLE exp := by
  induction exp with
  | nil => rfl
  | cons e exp ih =>
    rw [List.reverse_cons, limbsProcessed_append, ih]
    simp only [limbsLE]
    ring

/-- The limb loop of `pow_vartime` (past the first limb) computes the
processed value of the remaining limbs on top of the accumulator. -/
theorem Fp6.powLoop_eq (a : Fp6) : ∀ (L : List ℕ) (r : Fp6), (∀ e ∈ L, e < 2 ^ 64) →
    Fp6.powLoop a L r false = r ^ (2 ^ 64) ^ L.length * a ^ limbsProcessed L := by
  intro L
  induction L with
  | nil =>
    intro r _
    show r = r ^ (2 ^ 64) ^ (0 : ℕ) * a ^ limbsProcessed []
    rw [show limbsProcessed [] = 0 from rfl, pow_zero, pow_zero, pow_one, mul_one]
  | cons e L ih =>
    intro r hb
    show Fp6.powLoop a L (Fp6.limbBody a (Fp6.sqN 8 r) e) false = _
    rw [ih _ (fun x hx => hb x (List.mem_cons_of_mem _ hx)),
      Fp6.limbBody_eq a _ e (hb e (List.mem_cons_self _ _)), Fp6.sqN_eq]
    simp only [limbsProcessed, List.length_cons]
    rw [← pow_mul, show (2 : ℕ) ^ 8 * 2 ^ 56 = 2 ^ 64 by norm_num, mul_pow, ← pow_mul,
      ← pow_mul, mul_assoc, ← pow_add, pow_succ']
    have hK : (2 : ℕ) ^ (64 + 64 * L.length) = 2 ^ 64 * (2 ^ 64) ^ L.length := by
      rw [pow_add, ← pow_mul]
    rw [hK, ← pow_mul a e (2 ^ (64 * L.length)),
      ← pow_add a (e * 2 ^ (64 * L.length)) (limbsProcessed L)]

/-- C5 (amended): `pow_vartime` raises the base to the integer whose
little-endian 64-bit limb sequence is the given slice (the source iterates
from the top index downwards, so the last limb of the slice is the most
significant one). -/
theorem Fp6.pow_vartime_littleendian (a : Fp6) (exp : List ℕ)
    (h : ∀ e ∈ exp, e < 2 ^ 64) :
    a.pow_vartime exp = a ^ limbsLE exp := by
  rcases hrev : exp.reverse with _ | ⟨e, M⟩
  · have hnil : exp = [] := by simpa using congrArg List.reverse hrev
    subst hnil
    show Fp6.one = a ^ limbsLE []
    rw [show limbsLE [] = 0 from rfl, pow_zero]
    rfl
  · show Fp6.powLoop a exp.reverse Fp6.one true = _
    rw [hrev]
    show Fp6.powLoop a M (Fp6.limbBody a Fp6.one e) false = _
    have hbM : ∀ x ∈ M, x < 2 ^ 64 := by
      intro x hx
      apply h
      rw [← List.mem_reverse, hrev]
      exact List.mem_cons_of_mem _ hx
    have hbe : e < 2 ^ 64 := by
      apply h
      rw [← List.mem_reverse, hrev]
      exact List.mem_cons_self _ _
    rw [Fp6.powLoop_eq a M _ hbM, Fp6.limbBody_eq a _ e hbe]
    rw [show (Fp6.one : Fp6) = (1 : Fp6) from rfl, one_pow, one_mul, ← pow_mul, ← pow_add]
    congr 1
    rw [← limbsProcessed_reverse exp, hrev]
    simp only [limbsProcessed]

/-- Big-endian value of a limb slice (first limb most significant), the
reading the original claim uses. -/
def limbsBE (bs : List ℕ) : ℕ := bs.foldl (fun acc e => acc * 2 ^ 64 + e) 0

set_option maxHeartbeats 4000000 in
/-- C5 (counterexample): on the two-limb slice `[1, 0]`, `pow_vartime` of
`-1` returns `-1` (the slice denotes 1 in the little-endian reading the
code uses), not `(-1) ^ (2 ^ 64) = 1` as the big-endian reading of the
claim demands. -/
theorem Fp6.pow_vartime_bigendian_false :
    Fp6.one.neg.pow_vartime [1, 0] ≠ Fp6.one.neg ^ limbsBE [1, 0] := by
  have h1 : Fp6.one.neg.pow_vartime [1, 0] = Fp6.one.neg := by decide
  have h2 : limbsBE [1, 0] = 2 ^ 64 := by norm_num [limbsBE]
  have h3 : (Fp6.one.neg : Fp6) ^ ((2 : ℕ) ^ 64) = 1 := by
    rw [show (Fp6.one.neg : Fp6) = (-1 : Fp6) from rfl]
    exact Even.neg_one_pow ⟨2 ^ 63, by ring⟩
  rw [h1, h2, h3]
  decide

set_option maxHeartbeats 4000000 in
/-- Witness: the amended little-endian exponentiation law instantiated on
the slice `[2, 1]` for the base `-1`. -/
theorem Fp6.pow_vartime_littleendian_witness :
    (∀ e ∈ [2, 1], e < 2 ^ 64) ∧
      Fp6.one.neg.pow_vartime [2, 1] = Fp6.one.neg ^ limbsLE [2, 1] :=
  ⟨by decide, Fp6.pow_vartime_littleendian _ _ (by decide)⟩

/-- The limb table of the square-root exponent denotes `(P ^ 6 - 9) / 16`
in the little-endian reading. -/
theorem Q_9_16_denotes : limbsLE Fp6.Q_9_16 = (P ^ 6 - 9) / 16 := by decide

theorem Fp6.zero_mul_interleaved (x : Fp6) : Fp6.zero.mul_interleaved x = Fp6.zero := by
  rw [Fp6.mul_interleaved_def]
  exact zero_mul x

theorem Fp6.sqN_zero : Fp6.sqN 8 Fp6.zero = Fp6.zero := by
  rw [Fp6.sqN_eq]
  exact zero_pow (by norm_num)

theorem Fp6.limbBody_zero (e : ℕ) : Fp6.limbBody Fp6.zero Fp6.zero e = Fp6.zero := by
  simp only [Fp6.limbBody, Fp6.zero_mul_interleaved, Fp6.sqN_zero]

theorem Fp6.powLoop_zero : ∀ L : List ℕ, Fp6.powLoop Fp6.zero L Fp6.zero false = Fp6.zero := by
  intro L
  induction L with
  | nil => rfl
  | cons e L ih =>
    show Fp6.powLoop Fp6.zero L
      (Fp6.limbBody Fp6.zero (Fp6.sqN 8 Fp6.zero) e) false = Fp6.zero
    rw [Fp6.sqN_zero, Fp6.limbBody_zero]
    exact ih

set_option maxHeartbeats 4000000 in
/-- The large exponentiation of `sqrt` maps the additive identity to
itself. -/
theorem Fp6.pow_vartime_zero : Fp6.zero.pow_vartime Fp6.Q_9_16 = Fp6.zero := by
  show Fp6.powLoop Fp6.zero Fp6.Q_9_16.reverse Fp6.one true = Fp6.zero
  have hhead : Fp6.Q_9_16.reverse.head? = some 0x126e3a9ce60 := by decide
  rcases hq : Fp6.Q_9_16.reverse with _ | ⟨e, L⟩
  · exact absurd (congrArg List.length hq) (by decide)
  · rw [hq] at hhead
    have he : e = 0x126e3a9ce60 := by
      simpa using hhead
    show Fp6.powLoop Fp6.zero L (Fp6.limbBody Fp6.zero Fp6.one e) false = Fp6.zero
    rw [he, show Fp6.limbBody Fp6.zero Fp6.one 0x126e3a9ce60 = Fp6.zero by decide]
    exact Fp6.powLoop_zero L

set_option maxHeartbeats 4000000 in
/-- Both square-root candidates of the additive identity are zero. -/
theorem Fp6.sqrtCandidates_zero :
    Fp6.sqrtCandidates Fp6.zero = (Fp6.zero, Fp6.zero) := by
  simp only [Fp6.sqrtCandidates]
  rw [Fp6.pow_vartime_zero]
  decide

set_option maxHeartbeats 4000000 in
/-- The square root of the additive identity is reported valid. -/
theorem Fp6.sqrt_zero_isSome : (Fp6.sqrt Fp6.zero).isSome = true := by
  rw [Fp6.sqrt_eq, Fp6.sqrtCandidates_zero]
  decide

/-- Witness for the square-root specification at the concrete input zero:
the validity flag is set there, and the returned payload squares back to
zero. -/
theorem Fp6.sqrt_spec_witness :
    (Fp6.sqrt Fp6.zero).isSome = true ∧ (Fp6.sqrt Fp6.zero).value.square = Fp6.zero :=
  ⟨Fp6.sqrt_zero_isSome, (Fp6.sqrt_spec Fp6.zero).2 Fp6.sqrt_zero_isSome⟩

/-- Fuel-bounded binary exponentiation in an arbitrary residue ring, used
to evaluate the modular exponentiations of the primality certificates
below inside the kernel. -/
def powZ (n : ℕ) : ℕ → ZMod n → ℕ → ZMod n
  | 0, _, _ => 1
  | f + 1, x, e =>
    if e = 0 then 1
    else if e % 2 = 1 then x * powZ n f (x * x) (e / 2)
    else powZ n f (x * x) (e / 2)

theorem powZ_eq (n : ℕ) : ∀ (f : ℕ) (x : ZMod n) (e : ℕ), e < 2 ^ f → powZ n f x e = x ^ e := by
  intro f
  induction f with
  | zero =>
    intro x e he
    interval_cases e
    show (1 : ZMod n) = x ^ 0
    rw [pow_zero]
  | succ f ih =>
    intro x e he
    by_cases h0 : e = 0
    · subst h0
      show (if 0 = 0 then (1 : ZMod n) else _) = x ^ 0
      rw [if_pos rfl, pow_zero]
    · show (if e = 0 then (1 : ZMod n) else if e % 2 = 1 then x * powZ n f (x * x) (e / 2)
        else powZ n f (x * x) (e / 2)) = x ^ e
      rw [if_neg h0]
      have hrec : powZ n f (x * x) (e / 2) = x ^ (2 * (e / 2)) := by
        rw [ih (x * x) (e / 2) (by omega), ← pow_two, ← pow_mul, Nat.mul_comm]
      by_cases hpar : e % 2 = 1
      · rw [if_pos hpar, hrec, ← pow_succ']
        congr 1
        omega
      · rw [if_neg hpar, hrec]
        congr 1
        omega

/-- A prime dividing a product of primes is one of them. -/
theorem prime_mem_of_dvd_prod {q : ℕ} (hq : q.Prime) :
    ∀ L : List ℕ, (∀ m ∈ L, m.Prime) → q ∣ L.prod → q ∈ L := by
  intro L
  induction L with
  | nil =>
    intro _ h
    rw [List.prod_nil] at h
    exact absurd (Nat.dvd_one.mp h) hq.ne_one
  | cons m L ih =>
    intro hL h
    rw [List.prod_cons] at h
    rcases (Nat.Prime.dvd_mul hq).mp h with h | h
    · have : q = m :=
        (Nat.prime_dvd_prime_iff_eq hq (hL m (List.mem_cons_self _ _))).mp h
      exact this ▸ List.mem_cons_self _ _
    · exact List.mem_cons_of_mem _
        (ih (fun x hx => hL x (List.mem_cons_of_mem _ hx)) h)

/-- Lucas certificate checker: an element of full order together with the
prime factorization of `p - 1` certifies the primality of `p`. -/
theorem lucas_cert (p a : ℕ) (L : List ℕ)
    (hprod : L.prod = p - 1)
    (hL : ∀ m ∈ L, m.Prime)
    (ha : (a : ZMod p) ^ (p - 1) = 1)
    (hd : ∀ q ∈ L, (a : ZMod p) ^ ((p - 1) / q) ≠ 1) :
    p.Prime := by
  refine lucas_primality p (a : ZMod p) ha ?_
  intro q hq hqdvd
  exact hd q (prime_mem_of_dvd_prod hq L hL (hprod ▸ hqdvd))

set_option maxHeartbeats 4000000 in
/-- Lucas certificate for the prime `475709467`. -/
theorem prime_475709467 : Nat.Prime 475709467 := by
  have h : Nat.Prime 475709467 := by
    refine lucas_cert 475709467 2 [2, 3, 47, 1686913] (by decide) ?_ ?_ ?_
    · intro m hm
      simp only [List.mem_cons, List.not_mem_nil, or_false] at hm
      rcases hm with rfl | rfl | rfl | rfl
      · norm_num
      · norm_num
      · norm_num
      · norm_num
    · rw [← powZ_eq 475709467 32 _ _ (by norm_num)]
      decide
    · intro q hq
      simp only [List.mem_cons, List.not_mem_nil, or_false] at hq
      rcases hq with rfl | rfl | rfl | rfl <;>
        · rw [← powZ_eq 475709467 32 _ _ (lt_of_le_of_lt (Nat.div_le_self _ _) (by norm_num))]
          decide
  exact h

set_option maxHeartbeats 4000000 in
/-- Lucas certificate for the prime `927093389`. -/
theorem prime_927093389 : Nat.Prime 927093389 := by
  have h : Nat.Prime 927093389 := by
    refine lucas_cert 927093389 3 [2, 2, 13, 409, 43591] (by decide) ?_ ?_ ?_
    · intro m hm
      simp only [List.mem_cons, List.not_mem_nil, or_false] at hm
      rcases hm with rfl | rfl | rfl | rfl | rfl
      · norm_num
      · norm_num
      · norm_num
      · norm_num
      · norm_num
    · rw [← powZ_eq 927093389 33 _ _ (by norm_num)]
      decide
    · intro q hq
      simp only [List.mem_cons, List.not_mem_nil, or_false] at hq
      rcases hq with rfl | rfl | rfl | rfl | rfl <;>
        · rw [← powZ_eq 927093389 33 _ _ (lt_of_le_of_lt (Nat.div_le_self _ _) (by norm_num))]
          decide
  exact h

set_option maxHeartbeats 4000000 in
/-- Lucas certificate for the prime `13090036741`. -/
theorem prime_13090036741 : Nat.Prime 13090036741 := by
  have h : Nat.Prime 13090036741 := by
    refine lucas_cert 13090036741 10 [2, 2, 3, 5, 11, 47, 421987] (by decide) ?_ ?_ ?_
    · intro m hm
      simp only [List.mem_cons, List.not_mem_nil, or_false] at hm
      rcases hm with rfl | rfl | rfl | rfl | rfl | rfl | rfl
      · norm_num
      · norm_num
      · norm_num
      · norm_num
      · norm_num
      · norm_num
      · norm_num
    · rw [← powZ_eq 13090036741 37 _ _ (by norm_num)]
      decide
    · intro q hq
      simp only [List.mem_cons, List.not_mem_nil, or_false] at hq
      rcases hq with rfl | rfl | rfl | rfl | rfl | rfl | rfl <;>
        · rw [← powZ_eq 13090036741 37 _ _ (lt_of_le_of_lt (Nat.div_le_self _ _) (by norm_num))]
          decide
  exact h

set_option maxHeartbeats 4000000 in
/-- Lucas certificate for the prime `51376543`. -/
theorem prime_51376543 : Nat.Prime 51376543 := by
  have h : Nat.Prime 51376543 := by
    refine lucas_cert 51376543 3 [2, 3, 7, 151, 8101] (by decide) ?_ ?_ ?_
    · intro m hm
      simp only [List.mem_cons, List.not_mem_nil, or_false] at hm
      rcases hm with rfl | rfl | rfl | rfl | rfl
      · norm_num
      · norm_num
      · norm_num
      · norm_num
      · norm_num
    · rw [← powZ_eq 51376543 26 _ _ (by norm_num)]
      decide
    · intro q hq
      simp only [List.mem_cons, List.not_mem_nil, or_false] at hq
      rcases hq with rfl | rfl | rfl | rfl | rfl <;>
        · rw [← powZ_eq 51376543 26 _ _ (lt_of_le_of_lt (Nat.div_le_self _ _) (by norm_num))]
          decide
  exact h

set_option maxHeartbeats 4000000 in
/-- Lucas certificate for the prime `52437899`. -/
theorem prime_52437899 : Nat.Prime 52437899 := by
  have h : Nat.Prime 52437899 := by
    refine lucas_cert 52437899 2 [2, 43, 609743] (by decide) ?_ ?_ ?_
    · intro m hm
      simp only [List.mem_cons, List.not_mem_nil, or_false] at hm
      rcases hm with rfl | rfl | rfl
      · norm_num
      · norm_num
      · norm_num
    · rw [← powZ_eq 52437899 26 _ _ (by norm_num)]
      decide
    · intro q hq
      simp only [List.mem_cons, List.not_mem_nil, or_false] at hq
      rcases hq with rfl | rfl | rfl <;>
        · rw [← powZ_eq 52437899 26 _ _ (lt_of_le_of_lt (Nat.div_le_self _ _) (by norm_num))]
          decide
  exact h

set_option maxHeartbeats 4000000 in
/-- Lucas certificate for the prime `43670061551`. -/
theorem prime_43670061551 : Nat.Prime 43670061551 := by
  have h : Nat.Prime 43670061551 := by
    refine lucas_cert 43670061551 7 [2, 5, 5, 17, 51376543] (by decide) ?_ ?_ ?_
    · intro m hm
      simp only [List.mem_cons, List.not_mem_nil, or_false] at hm
      rcases hm with rfl | rfl | rfl | rfl | rfl
      · norm_num
      · norm_num
      · norm_num
      · norm_num
      · exact prime_51376543
    · rw [← powZ_eq 43670061551 39 _ _ (by norm_num)]
      decide
    · intro q hq
      simp only [List.mem_cons, List.not_mem_nil, or_false] at hq
      rcases hq with rfl | rfl | rfl | rfl | rfl <;>
        · rw [← powZ_eq 43670061551 39 _ _ (lt_of_le_of_lt (Nat.div_le_self _ _) (by norm_num))]
          decide
  exact h

set_option maxHeartbeats 4000000 in
/-- Lucas certificate for the prime `9272813673901`. -/
theorem prime_9272813673901 : Nat.Prime 9272813673901 := by
  have h : Nat.Prime 9272813673901 := by
    refine lucas_cert 9272813673901 2 [2, 2, 3, 5, 5, 7, 7577, 582767] (by decide) ?_ ?_ ?_
    · intro m hm
      simp only [List.mem_cons, List.not_mem_nil, or_false] at hm
      rcases hm with rfl | rfl | rfl | rfl | rfl | rfl | rfl | rfl
      · norm_num
      · norm_num
      · norm_num
      · norm_num
      · norm_num
      · norm_num
      · norm_num
      · norm_num
    · rw [← powZ_eq 9272813673901 47 _ _ (by norm_num)]
      decide
    · intro q hq
      simp only [List.mem_cons, List.not_mem_nil, or_false] at hq
      rcases hq with rfl | rfl | rfl | rfl | rfl | rfl | rfl | rfl <;>
        · rw [← powZ_eq 9272813673901 47 _ _ (lt_of_le_of_lt (Nat.div_le_self _ _) (by norm_num))]
          decide
  exact h

set_option maxHeartbeats 4000000 in
/-- Lucas certificate for the prime `64881703735777`. -/
theorem prime_64881703735777 : Nat.Prime 64881703735777 := by
  have h : Nat.Prime 64881703735777 := by
    refine lucas_cert 64881703735777 5 [2, 2, 2, 2, 2, 3, 3, 3, 3, 3, 3, 3, 927093389] (by decide) ?_ ?_ ?_
    · intro m hm
      simp only [List.mem_cons, List.not_mem_nil, or_false] at hm
      rcases hm with rfl | rfl | rfl | rfl | rfl | rfl | rfl | rfl | rfl | rfl | rfl | rfl | rfl
      · norm_num
      · norm_num
      · norm_num
      · norm_num
      · norm_num
      · norm_num
      · norm_num
      · norm_num
      · norm_num
      · norm_num
      · norm_num
      · norm_num
      · exact prime_927093389
    · rw [← powZ_eq 64881703735777 49 _ _ (by norm_num)]
      decide
    · intro q hq
      simp only [List.mem_cons, List.not_mem_nil, or_false] at hq
      rcases hq with rfl | rfl | rfl | rfl | rfl | rfl | rfl | rfl | rfl | rfl | rfl | rfl | rfl <;>
        · rw [← powZ_eq 64881703735777 49 _ _ (lt_of_le_of_lt (Nat.div_le_self _ _) (by norm_num))]
          decide
  exact h

set_option maxHeartbeats 4000000 in
/-- Lucas certificate for the prime `1928745244171409`. -/
theorem prime_1928745244171409 : Nat.Prime 1928745244171409 := by
  have h : Nat.Prime 1928745244171409 := by
    refine lucas_cert 1928745244171409 3 [2, 2, 2, 2, 13, 9272813673901] (by decide) ?_ ?_ ?_
    · intro m hm
      simp only [List.mem_cons, List.not_mem_nil, or_false] at hm
      rcases hm with rfl | rfl | rfl | rfl | rfl | rfl
      · norm_num
      · norm_num
      · norm_num
      · norm_num
      · norm_num
      · exact prime_9272813673901
    · rw [← powZ_eq 1928745244171409 54 _ _ (by norm_num)]
      decide
    · intro q hq
      simp only [List.mem_cons, List.not_mem_nil, or_false] at hq
      rcases hq with rfl | rfl | rfl | rfl | rfl | rfl <;>
        · rw [← powZ_eq 1928745244171409 54 _ _ (lt_of_le_of_lt (Nat.div_le_self _ _) (by norm_num))]
          decide
  exact h

set_option maxHeartbeats 4000000 in
/-- Lucas certificate for the prime `7259797099061183477`. -/
theorem prime_7259797099061183477 : Nat.Prime 7259797099061183477 := by
  have h : Nat.Prime 7259797099061183477 := by
    refine lucas_cert 7259797099061183477 2 [2, 2, 941, 1928745244171409] (by decide) ?_ ?_ ?_
    · intro m hm
      simp only [List.mem_cons, List.not_mem_nil, or_false] at hm
      rcases hm with rfl | rfl | rfl | rfl
      · norm_num
      · norm_num
      · norm_num
      · exact prime_1928745244171409
    · rw [← powZ_eq 7259797099061183477 66 _ _ (by norm_num)]
      decide
    · intro q hq
      simp only [List.mem_cons, List.not_mem_nil, or_false] at hq
      rcases hq with rfl | rfl | rfl | rfl <;>
        · rw [← powZ_eq 7259797099061183477 66 _ _ (lt_of_le_of_lt (Nat.div_le_self _ _) (by norm_num))]
          decide
  exact h

set_option maxHeartbeats 4000000 in
/-- Lucas certificate for the prime `2584487767265781317813`. -/
theorem prime_2584487767265781317813 : Nat.Prime 2584487767265781317813 := by
  have h : Nat.Prime 2584487767265781317813 := by
    refine lucas_cert 2584487767265781317813 2 [2, 2, 89, 7259797099061183477] (by decide) ?_ ?_ ?_
    · intro m hm
      simp only [List.mem_cons, List.not_mem_nil, or_false] at hm
      rcases hm with rfl | rfl | rfl | rfl
      · norm_num
      · norm_num
      · norm_num
      · exact prime_7259797099061183477
    · rw [← powZ_eq 2584487767265781317813 75 _ _ (by norm_num)]
      decide
    · intro q hq
      simp only [List.mem_cons, List.not_mem_nil, or_false] at hq
      rcases hq with rfl | rfl | rfl | rfl <;>
        · rw [← powZ_eq 2584487767265781317813 75 _ _ (lt_of_le_of_lt (Nat.div_le_self _ _) (by norm_num))]
          decide
  exact h

set_option maxHeartbeats 4000000 in
/-- Lucas certificate for the prime `3819663927398918131021`. -/
theorem prime_3819663927398918131021 : Nat.Prime 3819663927398918131021 := by
  have h : Nat.Prime 3819663927398918131021 := by
    refine lucas_cert 3819663927398918131021 6 [2, 2, 3, 3, 5, 19, 113, 755057, 13090036741] (by decide) ?_ ?_ ?_
    · intro m hm
      simp only [List.mem_cons, List.not_mem_nil, or_false] at hm
      rcases hm with rfl | rfl | rfl | rfl | rfl | rfl | rfl | rfl | rfl
      · norm_num
      · norm_num
      · norm_num
      · norm_num
      · norm_num
      · norm_num
      · norm_num
      · norm_num
      · exact prime_13090036741
    · rw [← powZ_eq 3819663927398918131021 75 _ _ (by norm_num)]
      decide
    · intro q hq
      simp only [List.mem_cons, List.not_mem_nil, or_false] at hq
      rcases hq with rfl | rfl | rfl | rfl | rfl | rfl | rfl | rfl | rfl <;>
        · rw [← powZ_eq 3819663927398918131021 75 _ _ (lt_of_le_of_lt (Nat.div_le_self _ _) (by norm_num))]
          decide
  exact h

set_option maxHeartbeats 4000000 in
/-- Lucas certificate for the prime `92691255082156974996979`. -/
theorem prime_92691255082156974996979 : Nat.Prime 92691255082156974996979 := by
  have h : Nat.Prime 92691255082156974996979 := by
    refine lucas_cert 92691255082156974996979 3 [2, 3, 31, 467, 16447, 64881703735777] (by decide) ?_ ?_ ?_
    · intro m hm
      simp only [List.mem_cons, List.not_mem_nil, or_false] at hm
      rcases hm with rfl | rfl | rfl | rfl | rfl | rfl
      · norm_num
      · norm_num
      · norm_num
      · norm_num
      · norm_num
      · exact prime_64881703735777
    · rw [← powZ_eq 92691255082156974996979 80 _ _ (by norm_num)]
      decide
    · intro q hq
      simp only [List.mem_cons, List.not_mem_nil, or_false] at hq
      rcases hq with rfl | rfl | rfl | rfl | rfl | rfl <;>
        · rw [← powZ_eq 92691255082156974996979 80 _ _ (lt_of_le_of_lt (Nat.div_le_self _ _) (by norm_num))]
          decide
  exact h

set_option maxHeartbeats 4000000 in
/-- Lucas certificate for the prime `1125266252156850182658904441386709967`. -/
theorem prime_1125266252156850182658904441386709967 : Nat.Prime 1125266252156850182658904441386709967 := by
  have h : Nat.Prime 1125266252156850182658904441386709967 := by
    refine lucas_cert 1125266252156850182658904441386709967 5 [2, 3373, 43670061551, 3819663927398918131021] (by decide) ?_ ?_ ?_
    · intro m hm
      simp only [List.mem_cons, List.not_mem_nil, or_false] at hm
      rcases hm with rfl | rfl | rfl | rfl
      · norm_num
      · norm_num
      · exact prime_43670061551
      · exact prime_3819663927398918131021
    · rw [← powZ_eq 1125266252156850182658904441386709967 123 _ _ (by norm_num)]
      decide
    · intro q hq
      simp only [List.mem_cons, List.not_mem_nil, or_false] at hq
      rcases hq with rfl | rfl | rfl | rfl <;>
        · rw [← powZ_eq 1125266252156850182658904441386709967 123 _ _ (lt_of_le_of_lt (Nat.div_le_self _ _) (by norm_num))]
          decide
  exact h

set_option maxHeartbeats 4000000 in
/-- Lucas certificate for the prime `15778400344354997994418419698270088123916926905054652752758194827714659`. -/
theorem prime_15778400344354997994418419698270088123916926905054652752758194827714659 : Nat.Prime 15778400344354997994418419698270088123916926905054652752758194827714659 := by
  have h : Nat.Prime 15778400344354997994418419698270088123916926905054652752758194827714659 := by
    refine lucas_cert 15778400344354997994418419698270088123916926905054652752758194827714659 2 [2, 3, 53, 475709467, 92691255082156974996979, 1125266252156850182658904441386709967] (by decide) ?_ ?_ ?_
    · intro m hm
      simp only [List.mem_cons, List.not_mem_nil, or_false] at hm
      rcases hm with rfl | rfl | rfl | rfl | rfl | rfl
      · norm_num
      · norm_num
      · norm_num
      · exact prime_475709467
      · exact prime_92691255082156974996979
      · exact prime_1125266252156850182658904441386709967
    · rw [← powZ_eq 15778400344354997994418419698270088123916926905054652752758194827714659 237 _ _ (by norm_num)]
      decide
    · intro q hq
      simp only [List.mem_cons, List.not_mem_nil, or_false] at hq
      rcases hq with rfl | rfl | rfl | rfl | rfl | rfl <;>
        · rw [← powZ_eq 15778400344354997994418419698270088123916926905054652752758194827714659 237 _ _ (lt_of_le_of_lt (Nat.div_le_self _ _) (by norm_num))]
          decide
  exact h

set_option maxHeartbeats 4000000 in
/-- Lucas certificate for the BLS12-381 characteristic: `P` is prime. -/
theorem P_prime : Nat.Prime P := by
  have h : Nat.Prime 4002409555221667393417789825735904156556882819939007885332058136124031650490837864442687629129015664037894272559787 := by
    refine lucas_cert 4002409555221667393417789825735904156556882819939007885332058136124031650490837864442687629129015664037894272559787 2 [2, 3, 3, 11, 23, 47, 10177, 859267, 52437899, 2584487767265781317813, 15778400344354997994418419698270088123916926905054652752758194827714659] (by decide) ?_ ?_ ?_
    · intro m hm
      simp only [List.mem_cons, List.not_mem_nil, or_false] at hm
      rcases hm with rfl | rfl | rfl | rfl | rfl | rfl | rfl | rfl | rfl | rfl | rfl
      · norm_num
      · norm_num
      · norm_num
      · norm_num
      · norm_num
      · norm_num
      · norm_num
      · norm_num
      · exact prime_52437899
      · exact prime_2584487767265781317813
      · exact prime_15778400344354997994418419698270088123916926905054652752758194827714659
    · rw [← powZ_eq 4002409555221667393417789825735904156556882819939007885332058136124031650490837864442687629129015664037894272559787 384 _ _ (by norm_num)]
      decide
    · intro q hq
      simp only [List.mem_cons, List.not_mem_nil, or_false] at hq
      rcases hq with rfl | rfl | rfl | rfl | rfl | rfl | rfl | rfl | rfl | rfl | rfl <;>
        · rw [← powZ_eq 4002409555221667393417789825735904156556882819939007885332058136124031650490837864442687629129015664037894272559787 384 _ _ (lt_of_le_of_lt (Nat.div_le_self _ _) (by norm_num))]
          decide
  exact h

instance : Fact (Nat.Prime P) := ⟨P_prime⟩

theorem neg_one_not_square : ¬ IsSquare (-1 : Fp) := by
  rw [ZMod.exists_sq_eq_neg_one_iff]
  decide

/-- The quadratic norm form `c0 ^ 2 + c1 ^ 2` of the modelled quadratic
field is anisotropic, because `-1` is not a square modulo `P`. -/
theorem Fp2.norm_eq_zero {x : Fp2} (h : x.c0 * x.c0 + x.c1 * x.c1 = 0) : x = 0 := by
  by_cases h1 : x.c1 = 0
  · have h0 : x.c0 = 0 := by
      rw [h1] at h
      exact mul_self_eq_zero.mp (by linear_combination h)
    exact Fp2.ext_iff2.mpr ⟨h0, h1⟩
  · exfalso
    apply neg_one_not_square
    refine ⟨x.c0 * x.c1⁻¹, ?_⟩
    field_simp
    linear_combination -h

/-- The quadratic norm form is multiplicative. -/
theorem Fp2.norm_mul (x y : Fp2) :
    (x * y).c0 * (x * y).c0 + (x * y).c1 * (x * y).c1 =
      (x.c0 * x.c0 + x.c1 * x.c1) * (y.c0 * y.c0 + y.c1 * y.c1) := by
  cases x; cases y
  simp only [Fp2.mul_mk]
  ring

instance : Field Fp2 :=
  { (inferInstance : CommRing Fp2) with
    inv := fun z => ⟨z.c0 * (z.c0 * z.c0 + z.c1 * z.c1)⁻¹,
      -z.c1 * (z.c0 * z.c0 + z.c1 * z.c1)⁻¹⟩
    exists_pair_ne := ⟨0, 1, by decide⟩
    mul_inv_cancel := by
      intro z hz
      have hN : z.c0 * z.c0 + z.c1 * z.c1 ≠ 0 := fun h => hz (Fp2.norm_eq_zero h)
      have hNN : (z.c0 * z.c0 + z.c1 * z.c1) * (z.c0 * z.c0 + z.c1 * z.c1)⁻¹ = 1 :=
        mul_inv_cancel₀ hN
      show z * ⟨z.c0 * (z.c0 * z.c0 + z.c1 * z.c1)⁻¹,
        -z.c1 * (z.c0 * z.c0 + z.c1 * z.c1)⁻¹⟩ = 1
      refine Fp2.ext_iff2.mpr ⟨?_, ?_⟩
      · show z.c0 * (z.c0 * (z.c0 * z.c0 + z.c1 * z.c1)⁻¹) -
          z.c1 * (-z.c1 * (z.c0 * z.c0 + z.c1 * z.c1)⁻¹) = 1
        linear_combination hNN
      · show z.c0 * (-z.c1 * (z.c0 * z.c0 + z.c1 * z.c1)⁻¹) +
          z.c1 * (z.c0 * (z.c0 * z.c0 + z.c1 * z.c1)⁻¹) = 0
        ring
    inv_zero := by
      show (⟨(0 : Fp) * ((0 : Fp) * 0 + 0 * 0)⁻¹, -(0 : Fp) * ((0 : Fp) * 0 + 0 * 0)⁻¹⟩ :
        Fp2) = 0
      refine Fp2.ext_iff2.mpr ⟨?_, ?_⟩ <;> · show _ = (0 : Fp); ring
    nnqsmul := _
    qsmul := _ }

theorem two_pow_third_ne_one : ((2 : ℕ) : Fp) ^ ((P - 1) / 3) ≠ 1 := by
  rw [← powZ_eq P 400 _ _ (lt_of_le_of_lt (Nat.div_le_self _ _) (by norm_num [P]))]
  decide

/-- The residue 2 is not a cube modulo `P` (it is the quadratic norm of the
cubic nonresidue `u + 1`). -/
theorem two_not_cube (b : Fp) : b ^ 3 ≠ 2 := by
  intro h
  have hb : b ≠ 0 := by
    intro h0
    rw [h0] at h
    revert h
    decide
  apply two_pow_third_ne_one
  have hcast : ((2 : ℕ) : Fp) = (2 : Fp) := by norm_num
  rw [hcast]
  calc (2 : Fp) ^ ((P - 1) / 3) = (b ^ 3) ^ ((P - 1) / 3) := by rw [h]
    _ = b ^ (3 * ((P - 1) / 3)) := by rw [← pow_mul, Nat.mul_comm]
    _ = b ^ (P - 1) := by
        have h3 : 3 * ((P - 1) / 3) = P - 1 := by decide
        rw [h3]
    _ = 1 := ZMod.pow_card_sub_one_eq_one hb

/-- The cubic nonresidue `u + 1` of the tower is indeed not a cube in the
quadratic field. -/
theorem xi_not_cube : ∀ c : Fp2, c ^ 3 ≠ (⟨1, 1⟩ : Fp2) := by
  intro c h
  apply two_not_cube (c.c0 * c.c0 + c.c1 * c.c1)
  have e3 : c ^ 3 = c * c * c := by ring
  have h3 : (c ^ 3).c0 * (c ^ 3).c0 + (c ^ 3).c1 * (c ^ 3).c1 =
      (c.c0 * c.c0 + c.c1 * c.c1) ^ 3 := by
    rw [e3, Fp2.norm_mul, Fp2.norm_mul]
    ring
  rw [h] at h3
  linear_combination -h3

/-- Anisotropy of the cubic norm form over any field in which `ξ` is not a
cube: the only zero of `x ^ 3 + ξ y ^ 3 + ξ ^ 2 z ^ 3 - 3 ξ x y z` is the
origin. -/
theorem cubic_aniso {K : Type} [Field K] {ξ : K} (hξ : ∀ c : K, c ^ 3 ≠ ξ)
    (x y z : K) (h : x ^ 3 + ξ * y ^ 3 + ξ ^ 2 * z ^ 3 - 3 * ξ * x * y * z = 0) :
    x = 0 ∧ y = 0 ∧ z = 0 := by
  by_cases hz : z = 0
  · subst hz
    by_cases hy : y = 0
    · subst hy
      refine ⟨?_, rfl, rfl⟩
      have h3 : x ^ 3 = 0 := by linear_combination h
      exact pow_eq_zero_iff (by norm_num) |>.mp h3
    · exfalso
      apply hξ (-x / y)
      field_simp
      linear_combination -h
  · exfalso
    have key : (ξ * z ^ 2 - x * y) ^ 3 = ξ * (y ^ 2 - x * z) ^ 3 := by
      linear_combination (ξ * z ^ 3 - y ^ 3) * h
    by_cases hd : y ^ 2 - x * z = 0
    · apply hξ (y / z)
      have h1 : (ξ * z ^ 2 - x * y) ^ 3 = 0 := by
        rw [key, hd]
        ring
      have h2 : ξ * z ^ 2 - x * y = 0 := pow_eq_zero_iff (by norm_num) |>.mp h1
      have h3 : y ^ 3 = ξ * z ^ 3 := by linear_combination z * (-h2) + y * hd
      rw [div_pow, h3, mul_div_assoc, div_self (pow_ne_zero 3 hz), mul_one]
    · apply hξ ((ξ * z ^ 2 - x * y) / (y ^ 2 - x * z))
      rw [div_pow, key, mul_div_assoc, div_self (pow_ne_zero 3 hd), mul_one]

theorem Fp2.square_eq2 (x : Fp2) : x.square = x * x := rfl

/-- The three adjugate coefficients computed inside `Fp6::invert` (the
values `c0`, `c1`, `c2` of the source). -/
def Fp6.invCoeffs (a : Fp6) : Fp2 × Fp2 × Fp2 :=
  let c0 := (a.c1 * a.c2).mul_by_nonresidue
  let c0 := a.c0.square - c0
  let c1 := a.c2.square.mul_by_nonresidue
  let c1 := c1 - a.c0 * a.c1
  let c2 := a.c1.square
  let c2 := c2 - a.c0 * a.c2
  (c0, c1, c2)

/-- The scalar `tmp` computed inside `Fp6::invert` (the quadratic-field
norm of the cubic extension). -/
def Fp6.invTmp (a : Fp6) : Fp2 :=
  ((a.c1 * a.invCoeffs.2.2) + (a.c2 * a.invCoeffs.2.1)).mul_by_nonresidue +
    a.c0 * a.invCoeffs.1

theorem Fp6.invert_eq (a : Fp6) :
    a.invert = (a.invTmp).invert.map fun t =>
      ⟨t * a.invCoeffs.1, t * a.invCoeffs.2.1, t * a.invCoeffs.2.2⟩ := rfl

/-- The scalar `tmp` of `Fp6::invert` is the symmetric cubic norm form in
the three components, with `ξ = u + 1`. -/
theorem Fp6.invTmp_eq (a : Fp6) :
    a.invTmp = a.c0 ^ 3 + (⟨1, 1⟩ : Fp2) * a.c1 ^ 3 + (⟨1, 1⟩ : Fp2) ^ 2 * a.c2 ^ 3 -
      3 * (⟨1, 1⟩ : Fp2) * a.c0 * a.c1 * a.c2 := by
  simp only [Fp6.invTmp, Fp6.invCoeffs, Fp2.square_eq2, Fp2.mul_by_nonresidue_eq]
  ring

/-- The adjugate identity of `Fp6::invert`: the adjugate vector times the
element is the scalar `tmp` embedded in the prime slot. -/
theorem Fp6.adj_mul (a : Fp6) :
    (⟨a.invCoeffs.1, a.invCoeffs.2.1, a.invCoeffs.2.2⟩ : Fp6) * a =
      ⟨a.invTmp, 0, 0⟩ := by
  simp only [Fp6.mul_eq, Fp6.invCoeffs, Fp6.invTmp, Fp2.square_eq2,
    Fp2.mul_by_nonresidue_eq, Fp6.mk.injEq]
  refine ⟨?_, ?_, ?_⟩ <;> ring

theorem Fp.powFuel_eq : ∀ (f : ℕ) (x : Fp) (e : ℕ), e < 2 ^ f → Fp.powFuel f x e = x ^ e := by
  intro f
  induction f with
  | zero =>
    intro x e he
    interval_cases e
    show (1 : Fp) = x ^ 0
    rw [pow_zero]
  | succ f ih =>
    intro x e he
    by_cases h0 : e = 0
    · subst h0
      show (if 0 = 0 then (1 : Fp) else _) = x ^ 0
      rw [if_pos rfl, pow_zero]
    · show (if e = 0 then (1 : Fp) else if e % 2 = 1 then x * Fp.powFuel f (x * x) (e / 2)
        else Fp.powFuel f (x * x) (e / 2)) = x ^ e
      rw [if_neg h0]
      have hrec : Fp.powFuel f (x * x) (e / 2) = x ^ (2 * (e / 2)) := by
        rw [ih (x * x) (e / 2) (by omega), ← pow_two, ← pow_mul, Nat.mul_comm]
      by_cases hpar : e % 2 = 1
      · rw [if_pos hpar, hrec, ← pow_succ']
        congr 1
        omega
      · rw [if_neg hpar, hrec]
        congr 1
        omega

/-- C2: the validity flag of `invert a` is false exactly when `a` is the
additive identity, and for nonzero `a` the payload multiplied by `a` (with
the general interleaved product) is the multiplicative identity. -/
theorem Fp6.invert_spec (a : Fp6) :
    ((a.invert.isSome = true) ↔ a ≠ Fp6.zero) ∧
      (a ≠ Fp6.zero → a.invert.value.mul_interleaved a = Fp6.one) := by
  have hiff : a.invTmp = 0 ↔ a = Fp6.zero := by
    constructor
    · intro h
      have h' : a.c0 ^ 3 + (⟨1, 1⟩ : Fp2) * a.c1 ^ 3 + (⟨1, 1⟩ : Fp2) ^ 2 * a.c2 ^ 3 -
          3 * (⟨1, 1⟩ : Fp2) * a.c0 * a.c1 * a.c2 = 0 := by
        rw [← Fp6.invTmp_eq]
        exact h
      obtain ⟨h0, h1, h2⟩ := cubic_aniso xi_not_cube a.c0 a.c1 a.c2 (by linear_combination h')
      cases a
      exact Fp6.ext_iff.mpr ⟨h0, h1, h2⟩
    · intro h
      rw [h]
      decide
  constructor
  · show ((decide ¬(a.invTmp = 0)) = true) ↔ a ≠ Fp6.zero
    rw [decide_eq_true_eq]
    exact not_congr hiff
  · intro ha
    have htmp : a.invTmp ≠ 0 := fun h => ha (hiff.mp h)
    have hN : a.invTmp.c0 * a.invTmp.c0 + a.invTmp.c1 * a.invTmp.c1 ≠ 0 :=
      fun h => htmp (Fp2.norm_eq_zero h)
    have hfer : (a.invTmp.c0 * a.invTmp.c0 + a.invTmp.c1 * a.invTmp.c1) *
        (Fp.invert (a.invTmp.c0 * a.invTmp.c0 + a.invTmp.c1 * a.invTmp.c1)).value = 1 := by
      show _ * Fp.powFuel 400 _ (P - 2) = 1
      rw [Fp.powFuel_eq 400 _ (P - 2) (by norm_num [P]), ← pow_succ']
      rw [show P - 2 + 1 = P - 1 by norm_num [P]]
      exact ZMod.pow_card_sub_one_eq_one hN
    have htv : (Fp2.invert a.invTmp).value * a.invTmp = 1 := by
      refine Fp2.ext_iff2.mpr ⟨?_, ?_⟩
      · show a.invTmp.c0 * (Fp.invert (a.invTmp.c0 * a.invTmp.c0 + a.invTmp.c1 * a.invTmp.c1)).value *
            a.invTmp.c0 -
          -a.invTmp.c1 * (Fp.invert (a.invTmp.c0 * a.invTmp.c0 + a.invTmp.c1 * a.invTmp.c1)).value *
            a.invTmp.c1 = 1
        linear_combination hfer
      · show a.invTmp.c0 * (Fp.invert (a.invTmp.c0 * a.invTmp.c0 + a.invTmp.c1 * a.invTmp.c1)).value *
            a.invTmp.c1 +
          -a.invTmp.c1 * (Fp.invert (a.invTmp.c0 * a.invTmp.c0 + a.invTmp.c1 * a.invTmp.c1)).value *
            a.invTmp.c0 = 0
        ring
    rw [Fp6.mul_interleaved_def]
    show (⟨(Fp2.invert a.invTmp).value * a.invCoeffs.1,
        (Fp2.invert a.invTmp).value * a.invCoeffs.2.1,
        (Fp2.invert a.invTmp).value * a.invCoeffs.2.2⟩ : Fp6) * a = Fp6.one
    have hval : (⟨(Fp2.invert a.invTmp).value * a.invCoeffs.1,
        (Fp2.invert a.invTmp).value * a.invCoeffs.2.1,
        (Fp2.invert a.invTmp).value * a.invCoeffs.2.2⟩ : Fp6) * a =
        (⟨(Fp2.invert a.invTmp).value, 0, 0⟩ : Fp6) *
          ((⟨a.invCoeffs.1, a.invCoeffs.2.1, a.invCoeffs.2.2⟩ : Fp6) * a) := by
      simp only [Fp6.mul_eq, Fp6.mk.injEq]
      refine ⟨?_, ?_, ?_⟩ <;> ring
    rw [hval, Fp6.adj_mul]
    simp only [Fp6.mul_eq, Fp6.one, Fp6.mk.injEq, Fp2.zero_eq, Fp2.one_eq]
    refine ⟨?_, ?_, ?_⟩
    · linear_combination htv
    · ring
    · ring

/-- Witness: the inversion specification instantiated at the multiplicative
identity, whose inverse is itself. -/
theorem Fp6.invert_spec_witness :
    Fp6.one ≠ Fp6.zero ∧ (Fp6.one.invert.value.mul_interleaved Fp6.one = Fp6.one) :=
  ⟨by decide, (Fp6.invert_spec Fp6.one).2 (by decide)⟩


/-- Fuel-based binary exponentiation over the modelled quadratic field,
used to evaluate the spec values of the embedded Frobenius constants. -/
def Fp2.powFuel : ℕ → Fp2 → ℕ → Fp2
  | 0, _, _ => Fp2.one
  | f + 1, x, e =>
    if e = 0 then Fp2.one
    else if e % 2 = 1 then x.mul (Fp2.powFuel f (x.mul x) (e / 2))
    else Fp2.powFuel f (x.mul x) (e / 2)

theorem Fp2.powFuel_eq2 : ∀ (f : ℕ) (x : Fp2) (e : ℕ), e < 2 ^ f → Fp2.powFuel f x e = x ^ e := by
  intro f
  induction f with
  | zero =>
    intro x e he
    interval_cases e
    show Fp2.one = x ^ 0
    rw [pow_zero, Fp2.one_eq]
  | succ f ih =>
    intro x e he
    by_cases h0 : e = 0
    · subst h0
      show (if 0 = 0 then Fp2.one else _) = x ^ 0
      rw [if_pos rfl, pow_zero, Fp2.one_eq]
    · show (if e = 0 then Fp2.one else if e % 2 = 1 then x.mul (Fp2.powFuel f (x.mul x) (e / 2))
        else Fp2.powFuel f (x.mul x) (e / 2)) = x ^ e
      rw [if_neg h0]
      have hxx : x.mul x = x * x := rfl
      have hrec : Fp2.powFuel f (x.mul x) (e / 2) = x ^ (2 * (e / 2)) := by
        rw [hxx, ih (x * x) (e / 2) (by omega), ← pow_two, ← pow_mul, Nat.mul_comm]
      by_cases hpar : e % 2 = 1
      · rw [if_pos hpar, hrec]
        show x * x ^ (2 * (e / 2)) = x ^ e
        rw [← pow_succ']
        congr 1
        omega
      · rw [if_neg hpar, hrec]
        congr 1
        omega

set_option maxHeartbeats 2000000 in
/-- The first embedded Frobenius constant denotes the mathematical value
`(u + 1) ^ ((P - 1) / 3)` the spec ascribes to it, corroborating the
Montgomery reading of the raw-limb constants. -/
theorem frobG1_denotes : frobG1 = (⟨1, 1⟩ : Fp2) ^ ((P - 1) / 3) := by
  have h0 : frobG1.c0 = (Fp2.powFuel 381 ⟨1, 1⟩ ((P - 1) / 3)).c0 := by decide
  have h1 : frobG1.c1 = (Fp2.powFuel 381 ⟨1, 1⟩ ((P - 1) / 3)).c1 := by decide
  have hp : Fp2.powFuel 381 ⟨1, 1⟩ ((P - 1) / 3) = (⟨1, 1⟩ : Fp2) ^ ((P - 1) / 3) :=
    Fp2.powFuel_eq2 381 _ _ (lt_of_le_of_lt (Nat.div_le_self _ _) (by norm_num [P]))
  rw [← hp]
  exact Fp2.ext_iff2.mpr ⟨h0, h1⟩

set_option maxHeartbeats 2000000 in
/-- The second embedded Frobenius constant denotes the mathematical value
`(u + 1) ^ ((2 P - 2) / 3)` the spec ascribes to it. -/
theorem frobG2_denotes : frobG2 = (⟨1, 1⟩ : Fp2) ^ ((2 * P - 2) / 3) := by
  have h0 : frobG2.c0 = (Fp2.powFuel 382 ⟨1, 1⟩ ((2 * P - 2) / 3)).c0 := by decide
  have h1 : frobG2.c1 = (Fp2.powFuel 382 ⟨1, 1⟩ ((2 * P - 2) / 3)).c1 := by decide
  have hp : Fp2.powFuel 382 ⟨1, 1⟩ ((2 * P - 2) / 3) = (⟨1, 1⟩ : Fp2) ^ ((2 * P - 2) / 3) :=
    Fp2.powFuel_eq2 382 _ _ (lt_of_le_of_lt (Nat.div_le_self _ _) (by norm_num [P]))
  rw [← hp]
  exact Fp2.ext_iff2.mpr ⟨h0, h1⟩

end Bls
